import Mathlib

/-! # ircd::db::column — a transactional key/value column

Verification development for `include/ircd/db/column.h`; the parts on
`simd/tzcnt.h`, `ircd/logger.cc` and `modules/m_privs.cc` follow it, each with
its definitions first, and the theorems of all parts come after them.

The header declares the column handle, its point operations (`has`, `read`,
`write`, `del`), the transactional `column::operator()`, the `column::delta`
tuple and the snapshot-bound iterators.  The bodies of these operations and
the storage engine underneath them are not part of the header; they are
modelled here from the specification, and every such definition says so in
its doc comment.

Model in one paragraph: the engine partition behind a column is a log of
committed write batches.  A snapshot is a sequence number into that log; the
data visible at a snapshot is the left-to-right replay of the batches below
that number into an ordered cell list.  Iterators keep their snapshot and a
cursor key and read the engine through the snapshot.
-/

namespace ircd.db

/-! ## Byte strings and their order -/

/-- A `string_view`: a sequence of bytes (binary data allowed in keys and values). -/
abbrev string_view := List (Fin 256)

/-- Byte-lexicographic strict order on byte strings: the first differing byte
decides; a proper prefix sorts before its extensions. -/
def lexLt : string_view → string_view → Bool
  | [], [] => false
  | [], _ :: _ => true
  | _ :: _, [] => false
  | a :: as, b :: bs => decide (a < b) || (decide (a = b) && lexLt as bs)

/-- The non-strict order: `a` is not above `b`. -/
def lexLe (a b : string_view) : Bool :=
  !lexLt b a

/-! ## Deltas -/

/-- Modelled from the spec: the `enum op` of `delta.h`, which is not among the
sources.  The specification fixes the vocabulary `SET(key, value)` and
`DELETE(key)` and gives no semantics to any further operation. -/
inductive op where
  | SET
  | DELETE
  deriving DecidableEq, Repr

/-- The tuple `std::tuple<op, string_view, string_view>` underlying `column::delta`. -/
abbrev column.delta := op × string_view × string_view

/-- The constructor `delta(key, val, op)` with all three arguments given. -/
def column.delta.key_val_op (key val : string_view) (o : op) : column.delta :=
  (o, key, val)

/-- The constructor `delta(key, val)`: the operation defaults to `op::SET`. -/
def column.delta.key_val (key val : string_view) : column.delta :=
  column.delta.key_val_op key val op.SET

/-- The constructor `delta(op, key, val)` with all three arguments given. -/
def column.delta.op_key_val (o : op) (key val : string_view) : column.delta :=
  (o, key, val)

/-- The constructor `delta(op, key)`: the value defaults to the empty view. -/
def column.delta.op_key (o : op) (key : string_view) : column.delta :=
  column.delta.op_key_val o key []

/-- One stored cell: key and mapped value (`column::value_type`). -/
abbrev value_type := string_view × string_view

/-! ## The ordered cell list -/

/-- Modelled from the spec: the engine's `put` on an ordered key/value store.
The cell is placed at its position in key order; an existing cell with the
same key is replaced. -/
def put : List value_type → string_view → string_view → List value_type
  | [], k, v => [(k, v)]
  | (k', v') :: rest, k, v =>
    if lexLt k k' then (k, v) :: (k', v') :: rest
    else if k = k' then (k, v) :: rest
    else (k', v') :: put rest k v

/-- Modelled from the spec: the engine's `delete`; every cell stored under the
key is dropped, and a key that is not stored leaves the cells as they are. -/
def erase (cells : List value_type) (k : string_view) : List value_type :=
  cells.filter (fun kv => decide (kv.1 ≠ k))

/-- Modelled from the spec: the engine's `get`, the value of the first cell
stored under the key. -/
def get : List value_type → string_view → Option string_view
  | [], _ => none
  | (k', v') :: rest, k => if k' = k then some v' else get rest k

/-- Modelled from the spec: the effect of one delta on the cells.  The value of
a `DELETE` delta is meaningless and ignored. -/
def apply (cells : List value_type) (d : column.delta) : List value_type :=
  match d.1 with
  | op.SET => put cells d.2.1 d.2.2
  | op.DELETE => erase cells d.2.1

/-- The keys of a cell list, in storage order. -/
def keys (cells : List value_type) : List string_view :=
  cells.map Prod.fst

/-- Strictly ascending keys: every key is below every key stored after it. -/
def ascending (ks : List string_view) : Prop :=
  ks.Pairwise (fun a b => lexLt a b = true)

/-- Strictly descending keys: every key is above every key stored after it. -/
def descending (ks : List string_view) : Prop :=
  ks.Pairwise (fun a b => lexLt b a = true)

/-! ## The engine partition -/

/-- Modelled from the spec: the engine's real per-partition object
`database::column`, which the handle `column` points to.  It is the log of
committed write batches, oldest first; a batch is the atomicity boundary. -/
structure database.column where
  log : List (List column.delta)
  deriving DecidableEq, Repr

/-- Modelled from the spec: `database::snapshot`, an opaque point-in-time read
view; here the number of batches committed when it was taken. -/
structure database.snapshot where
  seq : Nat
  deriving DecidableEq, Repr

/-- The snapshot of the present moment. -/
def database.column.now (c : database.column) : database.snapshot :=
  ⟨c.log.length⟩

/-- The cells visible through a snapshot: the batches committed before it,
replayed in commit order, each batch in the order of its deltas. -/
def database.column.view (c : database.column) (ss : database.snapshot) : List value_type :=
  (c.log.take ss.seq).foldl (fun cells batch => batch.foldl apply cells) []

/-- The present contents of the column. -/
def database.column.contents (c : database.column) : List value_type :=
  c.view c.now

/-! ## Errors -/

/-- Modelled from the spec: the error taxonomy of the column layer. -/
inductive error where
  | not_found
  | buffer_too_small
  | invalid_handle
  | engine_failure
  | transaction_aborted
  deriving DecidableEq, Repr

/-! ## Point reads -/

/-- Modelled from the spec: `has(column &, key)`; tests if the key exists.  A
missing key is an answer, not an error.  Physical failure of the engine during
a [GET] is outside this model. -/
def has (c : database.column) (key : string_view) : Except error Bool :=
  .ok (get c.contents key).isSome

/-- Modelled from the spec: `read(column &, key)` returning the stored bytes,
failing with `not_found` when the key is absent. -/
def read (c : database.column) (key : string_view) : Except error string_view :=
  match get c.contents key with
  | some v => .ok v
  | none => .error error.not_found

/-! ## Writes

Every [SET] operation takes a last argument `fault`: the index of the engine
call of this operation at which a failure is injected, `none` when the engine
performs normally.  An operation returns the partition after the call
together with its outcome. -/

/-- Modelled from the spec: `write(column &, key, value)`; one engine `Put`,
appended to the log as a record of its own. -/
def write (c : database.column) (key value : string_view) (fault : Option Nat) :
    database.column × Except error Unit :=
  if fault = some 0 then (c, .error error.engine_failure)
  else (⟨c.log ++ [[column.delta.key_val key value]]⟩, .ok ())

/-- Modelled from the spec: `del(column &, key)`; one engine `Delete`.  The
engine records the deletion whether or not the key is stored, so `not_found`
is never thrown. -/
def del (c : database.column) (key : string_view) (fault : Option Nat) :
    database.column × Except error Unit :=
  if fault = some 0 then (c, .error error.engine_failure)
  else (⟨c.log ++ [[column.delta.op_key op.DELETE key]]⟩, .ok ())

/-- Modelled from the spec: staging of the deltas `begin..end` into a write
batch, one engine call per delta, in the order given.  `i` is the index of the
next engine call and `batch` what has been staged so far.  A failure partway
aborts the transaction. -/
def append (fault : Option Nat) : List column.delta → Nat → List column.delta →
    Except error (List column.delta)
  | [], _, batch => .ok batch
  | d :: ds, i, batch =>
    if fault = some i then .error error.transaction_aborted
    else append fault ds (i + 1) (batch ++ [d])

/-- Modelled from the spec: `column::operator()(begin, end, sopts)`; the deltas
are staged into one write batch, which the engine then commits as a whole (the
engine call after the last staging call). -/
def column.operator_call (c : database.column) (deltas : List column.delta)
    (fault : Option Nat) : database.column × Except error Unit :=
  match append fault deltas 0 [] with
  | .error e => (c, .error e)
  | .ok batch =>
    if fault = some deltas.length then (c, .error error.engine_failure)
    else (⟨c.log ++ [batch]⟩, .ok ())

/-- The overload `column::operator()(const delta &, sopts)`: a one-element range. -/
def column.operator_call_one (c : database.column) (d : column.delta)
    (fault : Option Nat) : database.column × Except error Unit :=
  column.operator_call c [d] fault

/-! ## Iterators -/

/-- Modelled from the spec: the native engine cursor positioned at the first key. -/
def seek_front (ks : List string_view) : Option string_view :=
  ks.head?

/-- Modelled from the spec: the native engine cursor positioned at the last key. -/
def seek_back (ks : List string_view) : Option string_view :=
  ks.getLast?

/-- Modelled from the spec: the native cursor positioned at the first key that
is not below the target. -/
def seek_lower (ks : List string_view) (k : string_view) : Option string_view :=
  ks.find? (fun x => !lexLt x k)

/-- Modelled from the spec: the native cursor positioned at the first key above
the target. -/
def seek_upper (ks : List string_view) (k : string_view) : Option string_view :=
  ks.find? (fun x => lexLt k x)

/-- Modelled from the spec: the native cursor positioned at exactly the target,
invalid when the target is not stored. -/
def seek_equal (ks : List string_view) (k : string_view) : Option string_view :=
  ks.find? (fun x => decide (x = k))

/-- Modelled from the spec: the native cursor advanced from key `cur`. -/
def cursor_next (ks : List string_view) (cur : string_view) : Option string_view :=
  ks.find? (fun x => lexLt cur x)

/-- Modelled from the spec: the native cursor retreated from key `cur`. -/
def cursor_prev (ks : List string_view) (cur : string_view) : Option string_view :=
  ks.reverse.find? (fun x => lexLt x cur)

/-- The members `ss` and `it` of `column::const_iterator_base`: the retained
snapshot and the native cursor, `none` for a cursor that is not valid.  The
member `c` is the partition the operations below take as their first argument;
the cached `val` is what `deref` computes. -/
structure column.const_iterator_base where
  ss : database.snapshot
  it : Option string_view
  deriving DecidableEq, Repr

/-- Modelled from the spec: `const_iterator_base::operator bool`. -/
def column.const_iterator_base.valid (i : column.const_iterator_base) : Bool :=
  i.it.isSome

/-- Modelled from the spec: `operator==` on iterators; cursor positions are
compared, and two invalid iterators are equal. -/
def column.const_iterator_base.eq (a b : column.const_iterator_base) : Bool :=
  decide (a.it = b.it)

/-- Modelled from the spec: `const_iterator_base::operator*`; the key under the
cursor with the value visible through the retained snapshot.  `none` stands for
the contract violation of dereferencing outside the valid range. -/
def column.const_iterator_base.deref (c : database.column) (i : column.const_iterator_base) :
    Option value_type :=
  match i.it with
  | none => none
  | some k => (get (c.view i.ss) k).map (fun v => (k, v))

/-- Modelled from the spec: `const_iterator::operator++`. -/
def column.const_iterator.incr (c : database.column) (i : column.const_iterator_base) :
    column.const_iterator_base :=
  ⟨i.ss, i.it.bind (cursor_next (keys (c.view i.ss)))⟩

/-- Modelled from the spec: `const_iterator::operator--`. -/
def column.const_iterator.decr (c : database.column) (i : column.const_iterator_base) :
    column.const_iterator_base :=
  ⟨i.ss, i.it.bind (cursor_prev (keys (c.view i.ss)))⟩

/-- Modelled from the spec: `const_reverse_iterator::operator++`. -/
def column.const_reverse_iterator.incr (c : database.column) (i : column.const_iterator_base) :
    column.const_iterator_base :=
  ⟨i.ss, i.it.bind (cursor_prev (keys (c.view i.ss)))⟩

/-- Modelled from the spec: `const_reverse_iterator::operator--`. -/
def column.const_reverse_iterator.decr (c : database.column) (i : column.const_iterator_base) :
    column.const_iterator_base :=
  ⟨i.ss, i.it.bind (cursor_next (keys (c.view i.ss)))⟩

/-- Modelled from the spec: `column::begin`. -/
def column.begin (c : database.column) : column.const_iterator_base :=
  ⟨c.now, seek_front (keys c.contents)⟩

/-- Modelled from the spec: `column::end`. -/
def column.end_ (c : database.column) : column.const_iterator_base :=
  ⟨c.now, none⟩

/-- Modelled from the spec: `column::rbegin`. -/
def column.rbegin (c : database.column) : column.const_iterator_base :=
  ⟨c.now, seek_back (keys c.contents)⟩

/-- Modelled from the spec: `column::rend`. -/
def column.rend (c : database.column) : column.const_iterator_base :=
  ⟨c.now, none⟩

/-- Modelled from the spec: `column::find`. -/
def column.find (c : database.column) (key : string_view) : column.const_iterator_base :=
  ⟨c.now, seek_equal (keys c.contents) key⟩

/-- Modelled from the spec: `column::lower_bound`. -/
def column.lower_bound (c : database.column) (key : string_view) : column.const_iterator_base :=
  ⟨c.now, seek_lower (keys c.contents) key⟩

/-- Modelled from the spec: `column::upper_bound`. -/
def column.upper_bound (c : database.column) (key : string_view) : column.const_iterator_base :=
  ⟨c.now, seek_upper (keys c.contents) key⟩

/-! ## Commits that happen while an iterator is alive -/

/-- One commit issued against the column: a point write, a point delete, or a
transaction, each with the fault the engine meets during it. -/
inductive commit where
  | write (key value : string_view) (fault : Option Nat)
  | del (key : string_view) (fault : Option Nat)
  | transaction (deltas : List column.delta) (fault : Option Nat)
  deriving DecidableEq, Repr

/-- The partition after one commit. -/
def commit.run (c : database.column) : commit → database.column
  | .write k v f => (ircd.db.write c k v f).1
  | .del k f => (ircd.db.del c k f).1
  | .transaction ds f => (column.operator_call c ds f).1

/-- The partition after a sequence of commits, in order. -/
def commit.run_all (c : database.column) (cs : List commit) : database.column :=
  cs.foldl commit.run c

/-! ## Traversals

`for (it = start; it != end(); ++it) visit(*it)`, with the commits of other
contexts interleaved: before the iterator is compared, dereferenced and
stepped for the n-th time, the n-th entry of the schedule is committed.  The
schedule also bounds the number of loop iterations; `none` is returned when it
is exhausted before the loop ends, or when an invalid position is dereferenced. -/

/-- Forward loop until `end()` under a schedule of interleaved commits. -/
def column.forward_amid (c : database.column) :
    List (List commit) → column.const_iterator_base → Option (List value_type)
  | [], _ => none
  | cs :: sched, i =>
    if i.eq (column.end_ (commit.run_all c cs)) then some []
    else match i.deref (commit.run_all c cs) with
      | none => none
      | some kv =>
        (column.forward_amid (commit.run_all c cs) sched
          (column.const_iterator.incr (commit.run_all c cs) i)).map (fun r => kv :: r)

/-- Reverse loop until `rend()` under a schedule of interleaved commits. -/
def column.reverse_amid (c : database.column) :
    List (List commit) → column.const_iterator_base → Option (List value_type)
  | [], _ => none
  | cs :: sched, i =>
    if i.eq (column.rend (commit.run_all c cs)) then some []
    else match i.deref (commit.run_all c cs) with
      | none => none
      | some kv =>
        (column.reverse_amid (commit.run_all c cs) sched
          (column.const_reverse_iterator.incr (commit.run_all c cs) i)).map (fun r => kv :: r)

/-- Forward loop with nothing committed meanwhile, at most `fuel` iterations. -/
def column.forward (c : database.column) (fuel : Nat) (i : column.const_iterator_base) :
    Option (List value_type) :=
  column.forward_amid c (List.replicate fuel []) i

/-- Reverse loop with nothing committed meanwhile, at most `fuel` iterations. -/
def column.reverse (c : database.column) (fuel : Nat) (i : column.const_iterator_base) :
    Option (List value_type) :=
  column.reverse_amid c (List.replicate fuel []) i


/-! ## A sample column -/

/-- A column with history: `"b"`, `"a"` and `"c"` are set in one transaction,
then `"c"` is deleted and `"a"` overwritten.  Its contents are
`[("a", "3"), ("b", "1")]`. -/
def sample : database.column :=
  ⟨[[column.delta.key_val [98] [49], column.delta.key_val [97] [50],
      column.delta.key_val [99] [48]],
    [column.delta.op_key op.DELETE [99]],
    [column.delta.key_val [97] [51]]]⟩

/-! ## The column handle -/

/-- The handle `struct column`: its one member `c`, a pointer to the real
`database::column` (here the address it holds) that is null by default. -/
structure column where
  c : Option Nat
  deriving DecidableEq, Repr

/-- The constructor `column() = default`: the member initialiser `c {nullptr}` applies. -/
def column.default : column :=
  ⟨none⟩

/-- Modelled from the spec: the constructor `column(database::column &c)`, which
the header declares and does not define; the handle refers to the partition
it is given. -/
def column.of_ref (address : Nat) : column :=
  ⟨some address⟩

/-- The member `operator bool() const { return bool(c); }`. -/
def column.operator_bool (h : column) : Bool :=
  h.c.isSome

/-- The member `bool operator!() const { return !c; }`. -/
def column.operator_not (h : column) : Bool :=
  h.c.isNone

/-! ## Dereferencing the handle -/

/-- The `database::column` objects that are alive, by address. -/
abbrev memory := Nat → Option database.column

/-- A reference to a `database::column`: the address of the object and the
object stored there. -/
abbrev column_ref := Nat × database.column

/-- The expression `*c` on the member `c`: the object at the address `c` holds.
There is no defined result, here `none`, when `c` is null or no object is
alive at the address. -/
def deref (m : memory) (c : Option Nat) : Option column_ref :=
  match c with
  | none => none
  | some p => (m p).map (fun obj => (p, obj))

/-- The conversion `column::operator database::column &()`: `return *c;`. -/
def column.operator_database_column (m : memory) (h : column) : Option column_ref :=
  deref m h.c

/-- The conversion `column::operator const database::column &() const`: `return *c;`. -/
def column.operator_const_database_column (m : memory) (h : column) : Option column_ref :=
  deref m h.c

/-- The conversion `column::operator database &()`: `return database::get(*c);`.
`database::get` is not among the sources and is the parameter `get`. -/
def column.operator_database {D : Type} (m : memory) (get : column_ref → D) (h : column) :
    Option D :=
  (deref m h.c).map get

/-- The conversion `column::operator const database &() const`:
`return database::get(*c);`. -/
def column.operator_const_database {D : Type} (m : memory) (get : column_ref → D)
    (h : column) : Option D :=
  (deref m h.c).map get

/-- A memory for examples: the sample column is alive at address 7, nothing else is. -/
def sample_memory : memory :=
  fun p => if p = 7 then some sample else none

/-! ## The delta tuple by index -/

/-- The enumerator `OP` of the anonymous enum in `column::delta`. -/
def column.delta.OP : Nat := 0

/-- The enumerator `KEY` of the anonymous enum in `column::delta`. -/
def column.delta.KEY : Nat := 1

/-- The enumerator `VAL` of the anonymous enum in `column::delta`. -/
def column.delta.VAL : Nat := 2

/-- An element of the delta tuple: the operation or one of the two views. -/
inductive column.delta.element where
  | operation (o : op)
  | view (s : string_view)
  deriving DecidableEq, Repr

/-- The tuple access `std::get<i>(delta)`; there is no element past index 2. -/
def column.delta.std_get (d : column.delta) : Nat → Option column.delta.element
  | 0 => some (.operation d.1)
  | 1 => some (.view d.2.1)
  | 2 => some (.view d.2.2)
  | _ => none

/-! ## Rows: one key across several columns -/

/-- Modelled from the spec: the Database, owner of the column partitions.  A
column is named by its numeric id; every id denotes a partition. -/
structure database where
  columns : Nat → database.column

/-- Modelled from the spec: one element of a row delta, `(Column, operation,
value)`; the key is the one the row shares. -/
structure cell.delta where
  col : Nat
  o : op
  val : string_view
  deriving DecidableEq, Repr

/-- Modelled from the spec: `row::delta`, the shared key with the cells of the
participating columns in order. -/
structure row.delta where
  key : string_view
  cells : List cell.delta
  deriving DecidableEq, Repr

/-- Modelled from the spec: staging of a row delta into one write batch that
spans columns, one engine call per cell; `i` is the index of the next engine
call.  A failure partway aborts the transaction. -/
def row.append (fault : Option Nat) (key : string_view) :
    List cell.delta → Nat → List (Nat × column.delta) →
    Except error (List (Nat × column.delta))
  | [], _, batch => .ok batch
  | cd :: cds, i, batch =>
    if fault = some i then .error error.transaction_aborted
    else row.append fault key cds (i + 1) (batch ++ [(cd.col, (cd.o, key, cd.val))])

/-- The write batch a row delta stages when no call fails: for every cell, in
order, the column it addresses and the delta on the shared key. -/
def row.batch (r : row.delta) : List (Nat × column.delta) :=
  r.cells.map (fun cd => (cd.col, (cd.o, r.key, cd.val)))

/-- The deltas a batch spanning columns holds for column `j`, in batch order. -/
def batch_of (batch : List (Nat × column.delta)) (j : Nat) : List column.delta :=
  (batch.filter (fun e => decide (e.1 = j))).map Prod.snd

/-- Modelled from the spec: the engine's commit of one write batch spanning
columns.  It is a single commit: the log of every column receives, at the same
sequence number, the part of the batch that is addressed to it. -/
def database.commit (d : database) (batch : List (Nat × column.delta)) : database :=
  ⟨fun j => ⟨(d.columns j).log ++ [batch_of batch j]⟩⟩

/-- Modelled from the spec: the commit of a row delta; the cells are staged into
one write batch, which the engine then commits once (the engine call after the
last staging call). -/
def row.write (d : database) (r : row.delta) (fault : Option Nat) :
    database × Except error Unit :=
  match row.append fault r.key r.cells 0 [] with
  | .error e => (d, .error e)
  | .ok batch =>
    if fault = some r.cells.length then (d, .error error.engine_failure)
    else (d.commit batch, .ok ())

/-- A database whose column 0 is the sample column and whose other columns are empty. -/
def sample_database : database :=
  ⟨fun j => if j = 0 then sample else ⟨[]⟩⟩

end ircd.db

/-! # ircd::simd::tzcnt — trailing zero bits of a vector word

Embedding of `include/ircd/simd/tzcnt.h`.  A vector is the list of its lanes,
lane 0 first.  `uint` arithmetic is arithmetic modulo `2^32`. -/

namespace ircd.simd

/-- Modelled from the spec: `boolmask`, a helper of this repository that is not
among the sources.  By its name and its use in `_tzcnt` it extends a truth
value to a `uint` mask: all bits zero for 0, all bits one otherwise. -/
def boolmask (b : Nat) : Nat :=
  if b = 0 then 0 else 4294967295

/-- The conversion `uint(cond)` of a condition: 1 when it holds, else 0. -/
def uint_of (cond : Bool) : Nat :=
  if cond then 1 else 0

/-- Trailing zero bits of `x` among its low `width` bits, for `x` not zero. -/
def count_trailing : Nat → Nat → Nat
  | 0, _ => 0
  | width + 1, x => if x % 2 = 1 then 0 else count_trailing width (x / 2) + 1

/-- The builtin `__builtin_ctz` on a 32-bit argument.  Its result for the
argument 0 is not defined by the compiler; `undef` is the value it happens to
return there. -/
def __builtin_ctz (undef : Nat) (x : Nat) : Nat :=
  if x % 4294967296 = 0 then undef else count_trailing 32 (x % 4294967296)

/-- The builtin `__builtin_ctzl` on a 64-bit argument, `undef` as for `__builtin_ctz`. -/
def __builtin_ctzl (undef : Nat) (x : Nat) : Nat :=
  if x % 18446744073709551616 = 0 then undef
  else count_trailing 64 (x % 18446744073709551616)

/-- The builtin `__builtin_bswap16`: the two bytes in reverse order. -/
def __builtin_bswap16 (x : Nat) : Nat :=
  x % 256 * 256 + x / 256 % 256

/-- The builtin `__builtin_bswap32`: the four bytes in reverse order. -/
def __builtin_bswap32 (x : Nat) : Nat :=
  x % 256 * 16777216 + x / 256 % 256 * 65536 + x / 65536 % 256 * 256 + x / 16777216 % 256

/-- The builtin `__builtin_bswap64`: the eight bytes in reverse order. -/
def __builtin_bswap64 (x : Nat) : Nat :=
  x % 256 * 72057594037927936 + x / 256 % 256 * 281474976710656
    + x / 65536 % 256 * 1099511627776 + x / 16777216 % 256 * 4294967296
    + x / 4294967296 % 256 * 16777216 + x / 1099511627776 % 256 * 65536
    + x / 281474976710656 % 256 * 256 + x / 72057594037927936 % 256

/-- The summand of one loop iteration of `_tzcnt` before the mask is applied:
the `if constexpr` chain on `sizeof_lane<T>()`, for the lane value `x`.  The
`int` results of the builtins are converted to `uint`. -/
def lane_count (sizeof_lane undef x : Nat) : Nat :=
  if sizeof_lane ≤ 1 then
    __builtin_ctz undef (x ||| 4294967040) % 4294967296
  else if sizeof_lane ≤ 2 then
    __builtin_ctz undef (__builtin_bswap16 x ||| 4294901760) % 4294967296
  else if sizeof_lane ≤ 4 then
    (boolmask (uint_of (x != 0)) &&& (__builtin_ctz undef (__builtin_bswap32 x) % 4294967296))
      ||| (boolmask (uint_of (x == 0)) &&& 32)
  else if sizeof_lane ≤ 8 then
    (boolmask (uint_of (x != 0)) &&& (__builtin_ctzl undef (__builtin_bswap64 x) % 4294967296))
      ||| (boolmask (uint_of (x == 0)) &&& 64)
  else 0

/-- One iteration of the `do` loop of `_tzcnt` on the lane value `x`; the state
is the pair `(ret, mask)`. -/
def _tzcnt_body (sizeof_lane undef x : Nat) (st : Nat × Nat) : Nat × Nat :=
  let ret := (st.1 + (st.2 &&& lane_count sizeof_lane undef x)) % 4294967296
  let mask := st.2 &&& boolmask (uint_of (ret % (sizeof_lane * 8) == 0))
  let mask := mask &&& boolmask (uint_of (ret != 0))
  (ret, mask)

/-- The loop `do { ... } while(i--)` of `_tzcnt` entered with the index `i`: the
body runs for the lanes `i`, `i - 1`, ..., `0`. -/
def _tzcnt_loop (sizeof_lane undef : Nat) (a : List Nat) : Nat → Nat × Nat → Nat × Nat
  | 0, st => _tzcnt_body sizeof_lane undef (a.getD 0 0) st
  | i + 1, st =>
    _tzcnt_loop sizeof_lane undef a i (_tzcnt_body sizeof_lane undef (a.getD (i + 1) 0) st)

/-- The template `_tzcnt(const T a)` for a vector of lanes of `sizeof_lane`
bytes: `ret(0), i(lanes<T>() - 1), mask(-1U)`, the loop, `return ret`. -/
def _tzcnt (sizeof_lane undef : Nat) (a : List Nat) : Nat :=
  (_tzcnt_loop sizeof_lane undef a (a.length - 1) (0, 4294967295)).1

/-- Modelled from the spec: the vector conversion `u64x2(a)` of a 128-bit word,
whose type is not among the sources; lane `i` holds the bits `64 i` to
`64 i + 63` of the word. -/
def u64x2_of (a : Nat) : List Nat :=
  [a % 18446744073709551616, a / 18446744073709551616 % 18446744073709551616]

/-- Modelled from the spec: the vector conversion `u64x4(a)` of a 256-bit word. -/
def u64x4_of (a : Nat) : List Nat :=
  (List.range 4).map (fun i => a / 18446744073709551616 ^ i % 18446744073709551616)

/-- Modelled from the spec: the vector conversion `u64x8(a)` of a 512-bit word. -/
def u64x8_of (a : Nat) : List Nat :=
  (List.range 8).map (fun i => a / 18446744073709551616 ^ i % 18446744073709551616)

/-- The specialisation `tzcnt(const u128x1 a)`. -/
def tzcnt_u128x1 (undef a : Nat) : Nat :=
  _tzcnt 8 undef (u64x2_of a)

/-- The specialisation `tzcnt(const u256x1 a)`. -/
def tzcnt_u256x1 (undef a : Nat) : Nat :=
  _tzcnt 8 undef (u64x4_of a)

/-- The specialisation `tzcnt(const u512x1 a)`. -/
def tzcnt_u512x1 (undef a : Nat) : Nat :=
  _tzcnt 8 undef (u64x8_of a)

/-- The specialisations `tzcnt(const u64x8 a)`, `tzcnt(const u64x4 a)` and
`tzcnt(const u64x2 a)`: the conversion is the identity. -/
def tzcnt_u64 (undef : Nat) (a : List Nat) : Nat :=
  _tzcnt 8 undef a

/-- The number of consecutive all-zero lanes counted down from the last lane. -/
def zero_lanes (a : List Nat) : Nat :=
  (a.reverse.takeWhile (fun x => x == 0)).length

/-- The count of trailing zero bits lane by lane from the last lane down: 64
for every all-zero lane, then the trailing zeros of the byte-swapped first
lane that is not zero. -/
def tzcnt_spec (a : List Nat) : Nat :=
  if zero_lanes a = a.length then 64 * a.length
  else 64 * zero_lanes a + count_trailing 64 (__builtin_bswap64 (a.getD (a.length - 1 - zero_lanes a) 0))

end ircd.simd

/-! # ircd::log — console switches

Embedding of the console switches of `ircd/logger.cc` and of the constructor
and destructor of `console_quiet`. -/

namespace ircd.log

/-- The enumerators of `facility` that `reflect` names; `_NUM_` is their number
and the size of every switch array. -/
inductive facility where
  | CRITICAL
  | ERROR
  | WARNING
  | NOTICE
  | INFO
  | DEBUG
  deriving DecidableEq, Repr

/-- The runtime master switches of the console, the suppression state kept for
`console_quiet`, and what has been written to the two console streams.  An
array indexed by facility is a function of the facility. -/
structure state where
  console_out : facility → Bool
  console_err : facility → Bool
  quieted_out : facility → Bool
  quieted_err : facility → Bool
  out_console : List String
  err_console : List String

/-- The console part of `slog`: the message goes to the error console when
`console_err[fac]` is set and to the output console when `console_out[fac]` is
set; no switch is written. -/
def slog (fac : facility) (msg : String) (s : state) : state :=
  ⟨s.console_out, s.console_err, s.quieted_out, s.quieted_err,
    if s.console_out fac then s.out_console ++ [msg] else s.out_console,
    if s.console_err fac then s.err_console ++ [msg] else s.err_console⟩

/-- Modelled from the spec: `notice`, declared in a header that is not among the
sources; a message at facility `NOTICE`, logged through `slog`. -/
def notice (msg : String) (s : state) : state :=
  slog facility.NOTICE msg s

/-- The assignment `array[fac] = true`. -/
def set_true (array : facility → Bool) (fac : facility) : facility → Bool :=
  fun f => if f = fac then true else array f

/-- The constructor `console_quiet::console_quiet(const bool &showmsg)`. -/
def console_quiet.construct (showmsg : Bool) (s0 : state) : state :=
  -- if(showmsg) notice(...)
  let s1 := if showmsg then notice "Log messages are now quieted at the console" s0 else s0
  -- std::copy(console_out -> quieted_out); std::copy(console_err -> quieted_err)
  let s2 : state :=
    ⟨s1.console_out, s1.console_err, s1.console_out, s1.console_err,
      s1.out_console, s1.err_console⟩
  -- std::fill(console_out, false); std::fill(console_err, false)
  let s3 : state :=
    ⟨fun _ => false, fun _ => false, s2.quieted_out, s2.quieted_err,
      s2.out_console, s2.err_console⟩
  -- if(quieted_out[CRITICAL]) console_out[CRITICAL] = true
  let s4 : state :=
    if s3.quieted_out facility.CRITICAL then
      ⟨set_true s3.console_out facility.CRITICAL, s3.console_err, s3.quieted_out,
        s3.quieted_err, s3.out_console, s3.err_console⟩
    else s3
  -- if(quieted_err[CRITICAL]) console_err[CRITICAL] = true
  if s4.quieted_err facility.CRITICAL then
    ⟨s4.console_out, set_true s4.console_err facility.CRITICAL, s4.quieted_out,
      s4.quieted_err, s4.out_console, s4.err_console⟩
  else s4

/-- The destructor `console_quiet::~console_quiet()`: the switches are restored
from the suppression state (the stream flushes leave this state as it is). -/
def console_quiet.destruct (s : state) : state :=
  ⟨s.quieted_out, s.quieted_err, s.quieted_out, s.quieted_err, s.out_console, s.err_console⟩

/-- The switches as `init` leaves them, with `ircd::debugmode` off, and nothing
written yet. -/
def after_init : state :=
  ⟨fun f => decide (f = facility.NOTICE ∨ f = facility.INFO),
    fun f => decide (f = facility.CRITICAL ∨ f = facility.ERROR ∨ f = facility.WARNING),
    fun _ => false, fun _ => false, [], []⟩

end ircd.log

/-! # m_privs — the PRIVS command

Embedding of `modules/m_privs.cc`.  A handler returns the calls it makes, in
order.  The parameter array `parv` is a function of the index whose entries
may be null; `msgbuf_p` and `client`, which no handler reads, are left out. -/

namespace ircd.privs

/-- The members of `privset` that `show_privs` reads. -/
structure privset where
  name : String
  privs : String
  deriving DecidableEq, Repr

/-- The members of `client::client` that this module reads.  `my` is the result
of `my(client)` and `oper` that of `is(client, umode::OPER)`; `privset` and
`opername` are reached through `localClient`, `servname` through `servptr`. -/
structure client where
  name : String
  my : Bool
  oper : Bool
  flags : Nat
  privset : Option privset
  opername : String
  servname : String
  deriving DecidableEq, Repr

/-- The numerics this module sends. -/
inductive numeric where
  | RPL_PRIVS
  | ERR_NOSUCHNICK
  | ERR_NOPRIVILEGES
  deriving DecidableEq, Repr

/-- What the module uses and does not define: the lookups `client::find_person`
and `client::find_named_person`, the comparison `irccmp`, the id macros
`get_id` and `use_id`, `form_str`, `rb_strlcat`, and the flag constants of
`client::flags` named in `auth_client_table`. -/
structure env where
  find_person : String → Option client
  find_named_person : String → Option client
  irccmp : String → String → Int
  get_id : client → client → String
  use_id : client → String
  form_str : numeric → String
  rb_strlcat : String → String → Nat → String
  EXEMPTRESV : Nat
  EXEMPTKLINE : Nat
  EXEMPTFLOOD : Nat
  EXEMPTSPAMBOT : Nat
  EXEMPTSHIDE : Nat
  EXEMPTJUPE : Nat
  EXTENDCHANS : Nat

/-- A call a handler makes. -/
inductive call where
  | sendto_one_numeric (dest : client) (num : numeric) (fmt : String) (args : List String)
  | sendto_one (dest : client) (fmt : String) (args : List String)
  | show_privs (source target : client)
  deriving DecidableEq, Repr

/-- Modelled from the spec: the macro `EmptyString`, which is not among the
sources; by its name and use, true of a null pointer and of a string with no
character. -/
def EmptyString (x : Option String) : Bool :=
  match x with
  | none => true
  | some str => str.isEmpty

/-- The table `auth_client_table`, without its terminating entry. -/
def auth_client_table (e : env) : List (String × Nat) :=
  [("resv_exempt", e.EXEMPTRESV), ("kline_exempt", e.EXEMPTKLINE),
    ("flood_exempt", e.EXEMPTFLOOD), ("spambot_exempt", e.EXEMPTSPAMBOT),
    ("shide_exempt", e.EXEMPTSHIDE), ("jupe_exempt", e.EXEMPTJUPE),
    ("extend_chans", e.EXTENDCHANS)]

/-- The body of the `while (p->name != NULL)` loop of `show_privs`, run over the
table entries in order. -/
def show_privs_flags (e : env) (target : client) : List (String × Nat) → String → String
  | [], buf => buf
  | (name, mode) :: rest, buf =>
    if target.flags &&& mode ≠ 0 then
      let buf1 := if buf ≠ "" then e.rb_strlcat buf " " 512 else buf
      show_privs_flags e target rest (e.rb_strlcat buf1 name 512)
    else show_privs_flags e target rest buf

/-- The buffer `buf` that `show_privs` builds for the target. -/
def show_privs_buf (e : env) (target : client) : String :=
  -- buf[0] = 0; if (privset) rb_strlcat(buf, privset->privs)
  let buf0 := match target.privset with
    | some ps => e.rb_strlcat "" ps.privs 512
    | none => ""
  -- if (is(*target_p, umode::OPER)) { ... }
  let buf1 :=
    if target.oper then
      let b1 := if buf0 ≠ "" then e.rb_strlcat buf0 " " 512 else buf0
      let b2 := e.rb_strlcat b1 "operator:" 512
      let b3 := e.rb_strlcat b2 target.opername 512
      match target.privset with
      | some ps =>
        let b4 := if b3 ≠ "" then e.rb_strlcat b3 " " 512 else b3
        let b5 := e.rb_strlcat b4 "privset:" 512
        e.rb_strlcat b5 ps.name 512
      | none => b3
    else buf0
  show_privs_flags e target (auth_client_table e) buf1

/-- The function `show_privs(source, target_p)`: one numeric `RPL_PRIVS` to the
source, with the name of the target and the buffer. -/
def show_privs (e : env) (source target : client) : List call :=
  [call.sendto_one_numeric source numeric.RPL_PRIVS (e.form_str numeric.RPL_PRIVS)
    [target.name, show_privs_buf e target]]

/-- The handler `me_privs` (ENCAP). -/
def me_privs (e : env) (source : client) (parc : Int) (parv : Nat → Option String) :
    List call :=
  if !source.oper || decide (parc < 2) || EmptyString (parv 1) then []
  else
    match e.find_person ((parv 1).getD "") with
    | some target => if target.my then [call.show_privs source target] else []
    | none => []

/-- The handler `mo_privs` (operators). -/
def mo_privs (e : env) (source : client) (parc : Int) (parv : Nat → Option String) :
    List call :=
  let found : Option client :=
    if decide (parc < 2) || EmptyString (parv 1) then some source
    else e.find_named_person ((parv 1).getD "")
  match found with
  | none =>
    [call.sendto_one_numeric source numeric.ERR_NOSUCHNICK
      (e.form_str numeric.ERR_NOSUCHNICK) [(parv 1).getD ""]]
  | some target =>
    if target.my then [call.show_privs source target]
    else
      [call.sendto_one target ":%s ENCAP %s PRIVS %s"
        [e.get_id source target, target.servname, e.use_id target]]

/-- The handler `m_privs` (users). -/
def m_privs (e : env) (source : client) (parc : Int) (parv : Nat → Option String) :
    List call :=
  if decide (parc ≥ 2) && !EmptyString (parv 1)
      && decide (e.irccmp ((parv 1).getD "") source.name ≠ 0) then
    [call.sendto_one_numeric source numeric.ERR_NOPRIVILEGES
      (e.form_str numeric.ERR_NOPRIVILEGES) []]
  else [call.show_privs source source]

/-- The messages that leave the server for a list of calls: a call of
`show_privs` stands for the calls of its body. -/
def outgoing (e : env) : List call → List call
  | [] => []
  | call.show_privs source target :: rest => show_privs e source target ++ outgoing e rest
  | c :: rest => c :: outgoing e rest

/-- Whether a call is a call of `show_privs`. -/
def call.is_show_privs : call → Bool
  | call.show_privs _ _ => true
  | _ => false

/-- Whether a call sends the given numeric. -/
def call.sends (n : numeric) : call → Bool
  | call.sendto_one_numeric _ num _ _ => decide (num = n)
  | _ => false

/-- An environment for examples: one local client `alice` and one remote client
`bob` are known, names compare by equality, `rb_strlcat` appends within the
size. -/
def sample_env : env :=
  { find_person := fun n =>
      if n = "alice" then some ⟨"alice", true, true, 0, none, "root", "here"⟩
      else if n = "bob" then some ⟨"bob", false, false, 0, none, "", "far"⟩
      else none
    find_named_person := fun n =>
      if n = "alice" then some ⟨"alice", true, true, 0, none, "root", "here"⟩
      else if n = "bob" then some ⟨"bob", false, false, 0, none, "", "far"⟩
      else none
    irccmp := fun a b => if a = b then 0 else 1
    get_id := fun s _ => s.name
    use_id := fun c => c.name
    form_str := fun _ => ""
    rb_strlcat := fun dst src size => String.mk ((dst ++ src).data.take (size - 1))
    EXEMPTRESV := 1
    EXEMPTKLINE := 2
    EXEMPTFLOOD := 4
    EXEMPTSPAMBOT := 8
    EXEMPTSHIDE := 16
    EXEMPTJUPE := 32
    EXTENDCHANS := 64 }

/-- The local operator `alice` of the sample environment. -/
def alice : client :=
  ⟨"alice", true, true, 0, none, "root", "here"⟩

/-- The remote user `bob` of the sample environment. -/
def bob : client :=
  ⟨"bob", false, false, 0, none, "", "far"⟩

/-- A parameter array holding the command and one argument. -/
def parv_of (arg : String) : Nat → Option String
  | 0 => some "PRIVS"
  | 1 => some arg
  | _ => none

end ircd.privs

namespace ircd.db

/-! ## The byte-lexicographic order is a strict total order -/

theorem lexLt_irrefl (a : string_view) : lexLt a a = false := by
  induction a with
  | nil => rfl
  | cons x xs ih => simp [lexLt, ih]

theorem lexLt_trans : ∀ (a b c : string_view), lexLt a b = true → lexLt b c = true →
    lexLt a c = true
  | [], [], _, h, _ => by simp [lexLt] at h
  | [], _ :: _, [], _, h => by simp [lexLt] at h
  | [], _ :: _, _ :: _, _, _ => by simp [lexLt]
  | _ :: _, [], _, h, _ => by simp [lexLt] at h
  | _ :: _, _ :: _, [], _, h => by simp [lexLt] at h
  | x :: xs, y :: ys, z :: zs, h1, h2 => by
    simp only [lexLt, Bool.or_eq_true, Bool.and_eq_true, decide_eq_true_eq] at h1 h2 ⊢
    rcases h1 with h1 | ⟨e1, h1⟩
    · rcases h2 with h2 | ⟨e2, _⟩
      · exact Or.inl (lt_trans h1 h2)
      · exact Or.inl (e2 ▸ h1)
    · rcases h2 with h2 | ⟨e2, h2⟩
      · exact Or.inl (e1 ▸ h2)
      · exact Or.inr ⟨e1.trans e2, lexLt_trans xs ys zs h1 h2⟩

theorem lexLt_asymm (a b : string_view) (h : lexLt a b = true) : lexLt b a = false := by
  cases hba : lexLt b a with
  | false => rfl
  | true =>
    have := lexLt_trans a b a h hba
    rw [lexLt_irrefl] at this
    exact this.symm

theorem lexLt_total : ∀ (a b : string_view), lexLt a b = false → lexLt b a = false → a = b
  | [], [], _, _ => rfl
  | [], _ :: _, h, _ => by simp [lexLt] at h
  | _ :: _, [], _, h => by simp [lexLt] at h
  | x :: xs, y :: ys, h1, h2 => by
    simp only [lexLt, Bool.or_eq_false_iff, Bool.and_eq_false_iff, decide_eq_false_iff_not] at h1 h2
    have hxy : x = y := le_antisymm (not_lt.mp h2.1) (not_lt.mp h1.1)
    subst hxy
    have t1 : lexLt xs ys = false := by
      rcases h1.2 with h | h
      · exact absurd rfl h
      · exact h
    have t2 : lexLt ys xs = false := by
      rcases h2.2 with h | h
      · exact absurd rfl h
      · exact h
    rw [lexLt_total xs ys t1 t2]

theorem lexLt_ne (a b : string_view) (h : lexLt a b = true) : a ≠ b := by
  intro e
  subst e
  rw [lexLt_irrefl] at h
  exact Bool.noConfusion h

/-! ## Cells: lookups after `put` and `erase` -/

theorem get_put_same (cells : List value_type) (k v : string_view) :
    get (put cells k v) k = some v := by
  induction cells with
  | nil => simp [put, get]
  | cons hd tl ih =>
    obtain ⟨k', v'⟩ := hd
    by_cases h1 : lexLt k k' = true
    · simp [put, h1, get]
    · by_cases h2 : k = k'
      · subst h2
        simp [put, lexLt_irrefl, get]
      · have h3 : ¬ k' = k := fun e => h2 e.symm
        simp [put, h1, h2, get, h3, ih]

theorem get_put_other (cells : List value_type) (k v j : string_view) (hj : j ≠ k) :
    get (put cells k v) j = get cells j := by
  have hk : ¬ k = j := fun e => hj e.symm
  induction cells with
  | nil => simp [put, get, hk]
  | cons hd tl ih =>
    obtain ⟨k', v'⟩ := hd
    by_cases h1 : lexLt k k' = true
    · simp [put, h1, get, hk]
    · by_cases h2 : k = k'
      · subst h2
        simp [put, lexLt_irrefl, get, hk]
      · simp [put, h1, h2, get, ih]

theorem get_erase_same (cells : List value_type) (k : string_view) :
    get (erase cells k) k = none := by
  induction cells with
  | nil => simp [erase, get]
  | cons hd tl ih =>
    obtain ⟨k', v'⟩ := hd
    by_cases h : k' = k
    · simpa [erase, h] using ih
    · simpa [erase, h, get] using ih

theorem get_erase_other (cells : List value_type) (k j : string_view) (hj : j ≠ k) :
    get (erase cells k) j = get cells j := by
  induction cells with
  | nil => simp [erase, get]
  | cons hd tl ih =>
    obtain ⟨k', v'⟩ := hd
    by_cases h : k' = k
    · have h3 : ¬ k = j := fun e => hj e.symm
      simpa [erase, h, get, h3] using ih
    · by_cases h4 : k' = j
      · subst h4
        simp [erase, h, get]
      · simpa [erase, h, get, h4] using ih

theorem get_isSome_iff (cells : List value_type) (k : string_view) :
    (get cells k).isSome = true ↔ k ∈ keys cells := by
  induction cells with
  | nil => simp [get, keys]
  | cons hd tl ih =>
    obtain ⟨k', v'⟩ := hd
    by_cases h : k' = k
    · simp [get, keys, h]
    · have h' : ¬ k = k' := fun e => h e.symm
      simp only [get, h, if_false, ih, keys, List.map_cons, List.mem_cons, h', false_or]

theorem get_eq_none_iff (cells : List value_type) (k : string_view) :
    get cells k = none ↔ k ∉ keys cells := by
  rw [← get_isSome_iff]
  cases get cells k <;> simp

theorem erase_absent (cells : List value_type) (k : string_view)
    (h : get cells k = none) : erase cells k = cells := by
  rw [get_eq_none_iff] at h
  unfold erase
  rw [List.filter_eq_self]
  intro kv hkv
  simp only [ne_eq, decide_not, Bool.not_eq_true', decide_eq_false_iff_not]
  intro e
  exact h (by rw [← e]; exact List.mem_map_of_mem Prod.fst hkv)

/-! ## Cells stay in key order -/

theorem mem_keys_put (cells : List value_type) (k v x : string_view) :
    x ∈ keys (put cells k v) ↔ x = k ∨ x ∈ keys cells := by
  induction cells with
  | nil => simp [put, keys]
  | cons hd tl ih =>
    obtain ⟨k', v'⟩ := hd
    by_cases h1 : lexLt k k' = true
    · simp [put, h1, keys]
    · by_cases h2 : k = k'
      · subst h2
        simp [put, lexLt_irrefl, keys]
      · have e : put ((k', v') :: tl) k v = (k', v') :: put tl k v := by
          simp [put, h1, h2]
        have e2 : keys ((k', v') :: put tl k v) = k' :: keys (put tl k v) := rfl
        have e3 : keys ((k', v') :: tl) = k' :: keys tl := rfl
        rw [e, e2, e3, List.mem_cons, List.mem_cons, ih]
        tauto

theorem mem_keys_erase (cells : List value_type) (k x : string_view) :
    x ∈ keys (erase cells k) ↔ x ≠ k ∧ x ∈ keys cells := by
  rw [← get_isSome_iff, ← get_isSome_iff]
  by_cases h : x = k
  · subst h
    simp [get_erase_same]
  · simp [get_erase_other cells k x h, h]

theorem ascending_put (cells : List value_type) (k v : string_view)
    (h : ascending (keys cells)) : ascending (keys (put cells k v)) := by
  induction cells with
  | nil => simp [put, keys, ascending]
  | cons hd tl ih =>
    obtain ⟨k', v'⟩ := hd
    have h' : (∀ a ∈ keys tl, lexLt k' a = true) ∧ ascending (keys tl) := by
      simpa [keys, ascending] using h
    by_cases h1 : lexLt k k' = true
    · have : ascending (k :: keys ((k', v') :: tl)) := by
        refine List.pairwise_cons.mpr ⟨?_, h⟩
        intro a ha
        rcases List.mem_cons.mp ha with e | ha
        · rw [e]; exact h1
        · exact lexLt_trans _ _ _ h1 (h'.1 a ha)
      simpa [put, h1, keys] using this
    · by_cases h2 : k = k'
      · subst h2
        simpa [put, lexLt_irrefl, keys] using h
      · have hk : lexLt k' k = true := by
          cases hlt : lexLt k' k with
          | true => rfl
          | false =>
            exact absurd (lexLt_total k k' (by simpa using h1) hlt) h2
        have : ascending (k' :: keys (put tl k v)) := by
          refine List.pairwise_cons.mpr ⟨?_, ih h'.2⟩
          intro a ha
          rcases (mem_keys_put tl k v a).mp ha with e | ha
          · rw [e]; exact hk
          · exact h'.1 a ha
        simpa [put, h1, h2, keys] using this

theorem ascending_erase (cells : List value_type) (k : string_view)
    (h : ascending (keys cells)) : ascending (keys (erase cells k)) := by
  unfold ascending keys erase at *
  exact List.Pairwise.sublist (List.Sublist.map Prod.fst (List.filter_sublist cells)) h

theorem ascending_apply (cells : List value_type) (d : column.delta)
    (h : ascending (keys cells)) : ascending (keys (apply cells d)) := by
  obtain ⟨o, k, v⟩ := d
  cases o
  · exact ascending_put cells k v h
  · exact ascending_erase cells k h

theorem ascending_replay (batch : List column.delta) (cells : List value_type)
    (h : ascending (keys cells)) : ascending (keys (batch.foldl apply cells)) := by
  induction batch generalizing cells with
  | nil => exact h
  | cons d ds ih => exact ih _ (ascending_apply cells d h)

theorem ascending_view (c : database.column) (ss : database.snapshot) :
    ascending (keys (c.view ss)) := by
  unfold database.column.view
  generalize c.log.take ss.seq = l
  have : ∀ (cells : List value_type), ascending (keys cells) →
      ascending (keys (l.foldl (fun cells batch => batch.foldl apply cells) cells)) := by
    induction l with
    | nil => intro cells h; exact h
    | cons b bs ih => intro cells h; exact ih _ (ascending_replay b cells h)
  exact this [] (by simp [keys, ascending])

/-! ## The log: snapshots and commits -/

theorem view_extend (log more : List (List column.delta)) (ss : database.snapshot)
    (h : ss.seq ≤ log.length) :
    (database.column.mk (log ++ more)).view ss = (database.column.mk log).view ss := by
  unfold database.column.view
  rw [List.take_append_of_le_length h]

theorem contents_commit (log : List (List column.delta)) (batch : List column.delta) :
    (database.column.mk (log ++ [batch])).contents
      = batch.foldl apply (database.column.mk log).contents := by
  have e : List.take (log.length + 1) (log ++ [batch]) = log ++ [batch] :=
    List.take_of_length_le (by simp)
  simp [database.column.contents, database.column.view, database.column.now, List.foldl_append, e]

theorem append_none (ds : List column.delta) (i : Nat) (batch : List column.delta) :
    append none ds i batch = .ok (batch ++ ds) := by
  induction ds generalizing i batch with
  | nil => simp [append]
  | cons d ds ih => simp [append, ih]

theorem append_some (j : Nat) (ds : List column.delta) (i : Nat) (batch : List column.delta) :
    append (some j) ds i batch
      = if i ≤ j ∧ j < i + ds.length then .error error.transaction_aborted
        else .ok (batch ++ ds) := by
  induction ds generalizing i batch with
  | nil =>
    have : ¬ (i ≤ j ∧ j < i) := by omega
    simp [append, this]
  | cons d ds ih =>
    by_cases h : j = i
    · subst h
      simp [append]
    · have h' : ¬ i = j := fun e => h e.symm
      simp only [append, Option.some.injEq, h, if_false, ih, List.length_cons,
        List.append_assoc, List.singleton_append]
      have : (i + 1 ≤ j ∧ j < i + 1 + ds.length) ↔ (i ≤ j ∧ j < i + (ds.length + 1)) := by
        omega
      simp only [this]

theorem operator_call_none (c : database.column) (ds : List column.delta) :
    column.operator_call c ds none = (⟨c.log ++ [ds]⟩, .ok ()) := by
  simp [column.operator_call, append_none]

theorem operator_call_some (c : database.column) (ds : List column.delta) (j : Nat) :
    column.operator_call c ds (some j)
      = if j < ds.length then (c, .error error.transaction_aborted)
        else if j = ds.length then (c, .error error.engine_failure)
        else (⟨c.log ++ [ds]⟩, .ok ()) := by
  by_cases h : j < ds.length
  · simp [column.operator_call, append_some, h]
  · by_cases h2 : j = ds.length
    · simp [column.operator_call, append_some, h2]
    · simp [column.operator_call, append_some, h, h2]

/-- The outcome of a transaction is one of two: it failed and the partition is
the one before the call, or it succeeded and the whole batch is in the log. -/
theorem operator_call_cases (c : database.column) (ds : List column.delta) (fault : Option Nat) :
    ((column.operator_call c ds fault).2 = .ok () ∧
        (column.operator_call c ds fault).1 = ⟨c.log ++ [ds]⟩) ∨
    ((∃ e, (column.operator_call c ds fault).2 = .error e) ∧
        (column.operator_call c ds fault).1 = c) := by
  cases fault with
  | none => left; simp [operator_call_none]
  | some j =>
    rw [operator_call_some]
    by_cases h : j < ds.length
    · right; simp [h]
    · by_cases h2 : j = ds.length
      · right; simp [h2]
      · left; simp [h, h2]

theorem write_cases (c : database.column) (k v : string_view) (fault : Option Nat) :
    ((write c k v fault).2 = .ok () ∧
        (write c k v fault).1 = ⟨c.log ++ [[column.delta.key_val k v]]⟩) ∨
    ((write c k v fault).2 = .error error.engine_failure ∧ (write c k v fault).1 = c) := by
  by_cases h : fault = some 0
  · right; simp [write, h]
  · left; simp [write, h]

theorem del_cases (c : database.column) (k : string_view) (fault : Option Nat) :
    ((del c k fault).2 = .ok () ∧
        (del c k fault).1 = ⟨c.log ++ [[column.delta.op_key op.DELETE k]]⟩) ∨
    ((del c k fault).2 = .error error.engine_failure ∧ (del c k fault).1 = c) := by
  by_cases h : fault = some 0
  · right; simp [del, h]
  · left; simp [del, h]

theorem contents_put (c : database.column) (k v : string_view) :
    (database.column.mk (c.log ++ [[column.delta.key_val k v]])).contents
      = put c.contents k v := by
  rw [contents_commit]
  rfl

theorem contents_erase (c : database.column) (k : string_view) :
    (database.column.mk (c.log ++ [[column.delta.op_key op.DELETE k]])).contents
      = erase c.contents k := by
  rw [contents_commit]
  rfl

/-! ## Point operations and transactions -/

/-- C1: `del` succeeds on a working engine whether or not the key is stored,
under no fault does it raise `not_found`, and deleting a key that is absent
leaves the contents of the column as they were. -/
theorem del_never_not_found (c : database.column) (k : string_view) :
    (del c k none).2 = .ok () ∧
    (∀ fault, (del c k fault).2 ≠ .error error.not_found) ∧
    (∀ fault, has c k = .ok false → (del c k fault).1.contents = c.contents) := by
  refine ⟨by simp [del], ?_, ?_⟩
  · intro fault
    rcases del_cases c k fault with h | h <;> rw [h.1] <;> simp
  · intro fault habs
    have hnone : get c.contents k = none := by
      simp only [has, Except.ok.injEq] at habs
      cases hg : get c.contents k with
      | none => rfl
      | some v => rw [hg] at habs; simp at habs
    rcases del_cases c k fault with h | h
    · rw [h.2, contents_erase, erase_absent _ _ hnone]
    · rw [h.2]

/-- C2: a transaction is all-or-nothing.  Whatever the deltas and whatever the
fault, either the call succeeds and the contents are the prior contents with
every delta applied, so that every later read sees all of them, or the call
fails and the partition is exactly the one before the call.  For the batch
`[SET(a,1), SET(b,2), DELETE(c)]` the reads see all three effects or none. -/
theorem operator_call_all_or_nothing (c : database.column) (ds : List column.delta)
    (fault : Option Nat) :
    (((column.operator_call c ds fault).2 = .ok () ∧
        (column.operator_call c ds fault).1.contents = ds.foldl apply c.contents ∧
        (∀ k, read (column.operator_call c ds fault).1 k
            = (match get (ds.foldl apply c.contents) k with
                | some v => .ok v
                | none => .error error.not_found))) ∨
      ((∃ e, (column.operator_call c ds fault).2 = .error e) ∧
        (column.operator_call c ds fault).1 = c)) ∧
    ((read (column.operator_call c
          [column.delta.key_val [97] [49], column.delta.key_val [98] [50],
            column.delta.op_key op.DELETE [99]] fault).1 [97] = .ok [49] ∧
      read (column.operator_call c
          [column.delta.key_val [97] [49], column.delta.key_val [98] [50],
            column.delta.op_key op.DELETE [99]] fault).1 [98] = .ok [50] ∧
      read (column.operator_call c
          [column.delta.key_val [97] [49], column.delta.key_val [98] [50],
            column.delta.op_key op.DELETE [99]] fault).1 [99] = .error error.not_found) ∨
      (column.operator_call c
          [column.delta.key_val [97] [49], column.delta.key_val [98] [50],
            column.delta.op_key op.DELETE [99]] fault).1 = c) := by
  constructor
  · rcases operator_call_cases c ds fault with h | h
    · left
      have hc : (column.operator_call c ds fault).1.contents = ds.foldl apply c.contents := by
        rw [h.2, contents_commit]
      refine ⟨h.1, hc, ?_⟩
      intro k
      simp only [read, hc]
    · right; exact h
  · rcases operator_call_cases c
      [column.delta.key_val [97] [49], column.delta.key_val [98] [50],
        column.delta.op_key op.DELETE [99]] fault with h | h
    · left
      have hc := contents_commit c.log
        [column.delta.key_val [97] [49], column.delta.key_val [98] [50],
          column.delta.op_key op.DELETE [99]]
      have e : List.foldl apply (database.column.mk c.log).contents
          [column.delta.key_val [97] [49], column.delta.key_val [98] [50],
            column.delta.op_key op.DELETE [99]]
          = erase (put (put c.contents [97] [49]) [98] [50]) [99] := rfl
      rw [e] at hc
      rw [h.2]
      simp only [read, hc]
      refine ⟨?_, ?_, ?_⟩
      · rw [get_erase_other _ _ _ (by decide), get_put_other _ _ _ _ (by decide), get_put_same]
      · rw [get_erase_other _ _ _ (by decide), get_put_same]
      · rw [get_erase_same]
    · right; exact h.2

/-- C3: a committed transaction leaves the contents equal to the left-to-right
fold of its deltas over the prior contents; so `[SET(k,v), DELETE(k)]` leaves
`k` absent and `[DELETE(k), SET(k,v)]` leaves `k` mapped to `v`. -/
theorem operator_call_in_order (c : database.column) :
    (∀ (ds : List column.delta) (fault : Option Nat),
      (column.operator_call c ds fault).2 = .ok () →
      (column.operator_call c ds fault).1.contents = ds.foldl apply c.contents) ∧
    (∀ (ds : List column.delta),
      (column.operator_call c ds none).2 = .ok () ∧
      (column.operator_call c ds none).1.contents = ds.foldl apply c.contents) ∧
    (∀ (k v : string_view),
      (column.operator_call c
          [column.delta.op_key_val op.SET k v, column.delta.op_key op.DELETE k] none).2 = .ok () ∧
      has (column.operator_call c
          [column.delta.op_key_val op.SET k v, column.delta.op_key op.DELETE k] none).1 k
        = .ok false ∧
      (column.operator_call c
          [column.delta.op_key op.DELETE k, column.delta.op_key_val op.SET k v] none).2 = .ok () ∧
      read (column.operator_call c
          [column.delta.op_key op.DELETE k, column.delta.op_key_val op.SET k v] none).1 k
        = .ok v) := by
  refine ⟨?_, ?_, ?_⟩
  · intro ds fault hok
    rcases operator_call_cases c ds fault with h | h
    · rw [h.2, contents_commit]
    · obtain ⟨e, he⟩ := h.1
      rw [he] at hok
      exact Except.noConfusion hok
  · intro ds
    simp [operator_call_none, contents_commit]
  · intro k v
    simp only [operator_call_none, has, read, contents_commit]
    refine ⟨trivial, ?_, trivial, ?_⟩
    · have e : List.foldl apply (database.column.mk c.log).contents
          [column.delta.op_key_val op.SET k v, column.delta.op_key op.DELETE k]
          = erase (put c.contents k v) k := rfl
      rw [e, get_erase_same]
      rfl
    · have e : List.foldl apply (database.column.mk c.log).contents
          [column.delta.op_key op.DELETE k, column.delta.op_key_val op.SET k v]
          = put (erase c.contents k) k v := rfl
      rw [e, get_put_same]

theorem unwritten_apply (cells : List value_type) (d : column.delta) (k : string_view)
    (hd : d.1 = op.SET → d.2.1 ≠ k) (h : k ∉ keys cells) : k ∉ keys (apply cells d) := by
  obtain ⟨o, j, v⟩ := d
  cases o
  · have hj : j ≠ k := hd rfl
    show k ∉ keys (put cells j v)
    rw [mem_keys_put]
    rintro (e | e)
    · exact hj e.symm
    · exact h e
  · show k ∉ keys (erase cells j)
    rw [mem_keys_erase]
    exact fun e => h e.2

theorem unwritten_replay (batch : List column.delta) (cells : List value_type) (k : string_view)
    (hb : ∀ d ∈ batch, d.1 = op.SET → d.2.1 ≠ k) (h : k ∉ keys cells) :
    k ∉ keys (batch.foldl apply cells) := by
  induction batch generalizing cells with
  | nil => exact h
  | cons d ds ih =>
    exact ih _ (fun x hx => hb x (List.mem_cons_of_mem _ hx))
      (unwritten_apply cells d k (hb d (List.mem_cons_self _ _)) h)

theorem unwritten_log (l : List (List column.delta)) (cells : List value_type) (k : string_view)
    (hl : ∀ batch ∈ l, ∀ d ∈ batch, d.1 = op.SET → d.2.1 ≠ k) (h : k ∉ keys cells) :
    k ∉ keys (l.foldl (fun cells batch => batch.foldl apply cells) cells) := by
  induction l generalizing cells with
  | nil => exact h
  | cons b bs ih =>
    exact ih _ (fun x hx => hl x (List.mem_cons_of_mem _ hx))
      (unwritten_replay b cells k (hl b (List.mem_cons_self _ _)) h)

/-- C4: read-after-write.  After a `write` of `v` under `k` that succeeded,
`read` of `k` returns exactly `v` and `has` of `k` is true. -/
theorem read_after_write (c : database.column) (k v : string_view) (fault : Option Nat)
    (hok : (write c k v fault).2 = .ok ()) :
    read (write c k v fault).1 k = .ok v ∧ has (write c k v fault).1 k = .ok true := by
  rcases write_cases c k v fault with h | h
  · rw [h.2]
    simp only [read, has, contents_put, get_put_same]
    exact ⟨trivial, rfl⟩
  · rw [h.1] at hok
    exact Except.noConfusion hok

/-- C5: `read` of a key that is absent fails with `not_found`.  This covers a
key no `SET` in the log of the column names (never written) and a key that has
just been deleted. -/
theorem read_absent_not_found (c : database.column) (k : string_view) :
    (k ∉ keys c.contents → read c k = .error error.not_found) ∧
    ((∀ batch ∈ c.log, ∀ d ∈ batch, d.1 = op.SET → d.2.1 ≠ k) →
      read c k = .error error.not_found) ∧
    read (del c k none).1 k = .error error.not_found := by
  have key : k ∉ keys c.contents → read c k = .error error.not_found := by
    intro h
    rw [← get_eq_none_iff] at h
    simp [read, h]
  refine ⟨key, ?_, ?_⟩
  · intro hl
    apply key
    unfold database.column.contents database.column.view
    exact unwritten_log _ [] k
      (fun b hb => hl b (List.mem_of_mem_take hb)) (by simp [keys])
  · have e : (del c k none).1 = ⟨c.log ++ [[column.delta.op_key op.DELETE k]]⟩ := by
      simp [del]
    rw [e]
    simp only [read, contents_erase, get_erase_same]

/-- C6: `has` never raises; it answers false for a key that is absent and true
exactly for the keys that are stored. -/
theorem has_iff_present (c : database.column) (k : string_view) :
    (k ∉ keys c.contents → has c k = .ok false) ∧
    (has c k = .ok true ↔ k ∈ keys c.contents) ∧
    (∃ b, has c k = .ok b) := by
  refine ⟨?_, ?_, ⟨_, rfl⟩⟩
  · intro h
    rw [← get_eq_none_iff] at h
    simp [has, h]
  · rw [← get_isSome_iff]
    simp [has]

/-- C7: point operations are single-delta transactions.  On a working engine
`write(k, v)` and the commit of `[delta(SET, k, v)]` both succeed and return
the same partition, and so do `del(k)` and the commit of `[delta(DELETE, k)]`;
under any faults, whenever both calls of a pair succeed they leave the column
in the same state. -/
theorem point_ops_are_single_delta (c : database.column) (k v : string_view) :
    write c k v none = column.operator_call_one c (column.delta.op_key_val op.SET k v) none ∧
    del c k none = column.operator_call_one c (column.delta.op_key op.DELETE k) none ∧
    (write c k v none).2 = .ok () ∧ (del c k none).2 = .ok () ∧
    (∀ f g, (write c k v f).2 = .ok () →
      (column.operator_call_one c (column.delta.op_key_val op.SET k v) g).2 = .ok () →
      (write c k v f).1 = (column.operator_call_one c (column.delta.op_key_val op.SET k v) g).1) ∧
    (∀ f g, (del c k f).2 = .ok () →
      (column.operator_call_one c (column.delta.op_key op.DELETE k) g).2 = .ok () →
      (del c k f).1 = (column.operator_call_one c (column.delta.op_key op.DELETE k) g).1) := by
  refine ⟨?_, ?_, ?_, ?_, ?_, ?_⟩
  · simp [column.operator_call_one, operator_call_none, write]; rfl
  · simp [column.operator_call_one, operator_call_none, del]
  · simp [write]
  · simp [del]
  · intro f g hf hg
    unfold column.operator_call_one at *
    rcases write_cases c k v f with h | h
    · rcases operator_call_cases c [column.delta.op_key_val op.SET k v] g with h' | h'
      · rw [h.2, h'.2]; rfl
      · obtain ⟨e, he⟩ := h'.1
        rw [he] at hg
        exact Except.noConfusion hg
    · rw [h.1] at hf
      exact Except.noConfusion hf
  · intro f g hf hg
    unfold column.operator_call_one at *
    rcases del_cases c k f with h | h
    · rcases operator_call_cases c [column.delta.op_key op.DELETE k] g with h' | h'
      · rw [h.2, h'.2]
      · obtain ⟨e, he⟩ := h'.1
        rw [he] at hg
        exact Except.noConfusion hg
    · rw [h.1] at hf
      exact Except.noConfusion hf

/-! ## Cursors over ascending keys -/

theorem ascending_split (pre rest : List string_view) (k : string_view)
    (h : ascending (pre ++ k :: rest)) :
    (∀ a ∈ pre, lexLt a k = true) ∧ (∀ b ∈ rest, lexLt k b = true) := by
  unfold ascending at h
  rw [List.pairwise_append] at h
  obtain ⟨_, h2, h3⟩ := h
  rw [List.pairwise_cons] at h2
  exact ⟨fun a ha => h3 a ha k (List.mem_cons_self _ _), h2.1⟩

theorem cursor_next_at (pre rest : List string_view) (k : string_view)
    (h : ascending (pre ++ k :: rest)) :
    cursor_next (pre ++ k :: rest) k = rest.head? := by
  obtain ⟨h1, h2⟩ := ascending_split pre rest k h
  unfold cursor_next
  have e : pre.find? (fun x => lexLt k x) = none := by
    rw [List.find?_eq_none]
    intro x hx
    rw [lexLt_asymm x k (h1 x hx)]
    simp
  rw [List.find?_append, e, Option.none_or, List.find?_cons_of_neg _ (by simp [lexLt_irrefl])]
  cases rest with
  | nil => rfl
  | cons r rs =>
    rw [List.find?_cons_of_pos _ (h2 r (List.mem_cons_self _ _))]
    rfl

theorem cursor_prev_at (pre rest : List string_view) (k : string_view)
    (h : ascending (pre ++ k :: rest)) :
    cursor_prev (pre ++ k :: rest) k = pre.getLast? := by
  obtain ⟨h1, h2⟩ := ascending_split pre rest k h
  unfold cursor_prev
  have e : rest.reverse.find? (fun x => lexLt x k) = none := by
    rw [List.find?_eq_none]
    intro x hx
    rw [lexLt_asymm k x (h2 x (List.mem_reverse.mp hx))]
    simp
  rw [List.reverse_append, List.reverse_cons, List.append_assoc, List.find?_append,
    List.find?_append, e, Option.none_or,
    List.find?_cons_of_neg _ (by simp [lexLt_irrefl]), List.find?_nil, Option.none_or]
  induction pre using List.reverseRecOn with
  | nil => rfl
  | append_singleton init a _ =>
    have ha : lexLt a k = true := h1 a (by simp)
    simp only [List.reverse_append, List.reverse_singleton, List.singleton_append,
      List.find?_cons, ha, List.getLast?_concat]

theorem get_at (pre rest : List value_type) (k v : string_view)
    (h : ascending (keys (pre ++ (k, v) :: rest))) :
    get (pre ++ (k, v) :: rest) k = some v := by
  have hk : keys (pre ++ (k, v) :: rest) = keys pre ++ k :: keys rest := by
    simp [keys]
  rw [hk] at h
  obtain ⟨h1, _⟩ := ascending_split _ _ _ h
  clear h hk
  induction pre with
  | nil => simp [get]
  | cons hd tl ih =>
    obtain ⟨k', v'⟩ := hd
    have hne : k' ≠ k := lexLt_ne k' k (h1 k' (by simp [keys]))
    have : get (tl ++ (k, v) :: rest) k = some v :=
      ih (fun a ha => h1 a (by simp only [keys, List.map_cons, List.mem_cons]; exact Or.inr ha))
    simpa [get, hne] using this

/-! ## Loops -/

theorem forward_zero (c : database.column) (i : column.const_iterator_base) :
    column.forward c 0 i = none := rfl

theorem forward_succ (c : database.column) (n : Nat) (i : column.const_iterator_base) :
    column.forward c (n + 1) i =
      if i.eq (column.end_ c) then some []
      else match i.deref c with
        | none => none
        | some kv => (column.forward c n (column.const_iterator.incr c i)).map (fun r => kv :: r) :=
  rfl

theorem reverse_succ (c : database.column) (n : Nat) (i : column.const_iterator_base) :
    column.reverse c (n + 1) i =
      if i.eq (column.rend c) then some []
      else match i.deref c with
        | none => none
        | some kv =>
          (column.reverse c n (column.const_reverse_iterator.incr c i)).map (fun r => kv :: r) :=
  rfl

theorem forward_from (c : database.column) (ss : database.snapshot) (rest : List value_type) :
    ∀ (pre : List value_type) (fuel : Nat), c.view ss = pre ++ rest → rest.length < fuel →
      column.forward c fuel ⟨ss, (keys rest).head?⟩ = some rest := by
  induction rest with
  | nil =>
    intro pre fuel _ hf
    obtain ⟨n, rfl⟩ : ∃ n, fuel = n + 1 := ⟨fuel - 1, by simp at hf; omega⟩
    rw [forward_succ]
    simp [keys, column.const_iterator_base.eq, column.end_]
  | cons hd tl ih =>
    intro pre fuel hv hf
    obtain ⟨k, v⟩ := hd
    obtain ⟨n, rfl⟩ : ∃ n, fuel = n + 1 := ⟨fuel - 1, by simp at hf; omega⟩
    have hasc : ascending (keys (pre ++ (k, v) :: tl)) := hv ▸ ascending_view c ss
    have hk : keys (pre ++ (k, v) :: tl) = keys pre ++ k :: keys tl := by simp [keys]
    have hnext : column.const_iterator.incr c ⟨ss, some k⟩ = ⟨ss, (keys tl).head?⟩ := by
      simp only [column.const_iterator.incr, Option.bind, hv, hk]
      rw [cursor_next_at _ _ _ (hk ▸ hasc)]
    have hderef : column.const_iterator_base.deref c ⟨ss, some k⟩ = some (k, v) := by
      simp only [column.const_iterator_base.deref, hv, get_at pre tl k v hasc, Option.map]
    have hv' : c.view ss = (pre ++ [(k, v)]) ++ tl := by simp [hv]
    have hrec := ih (pre ++ [(k, v)]) n hv' (by simp at hf; omega)
    have hhead : (keys ((k, v) :: tl)).head? = some k := rfl
    rw [forward_succ, hhead]
    simp only [column.const_iterator_base.eq, column.end_, hderef, hnext, hrec]
    simp

theorem reverse_from (c : database.column) (ss : database.snapshot) (pre : List value_type) :
    ∀ (rest : List value_type) (fuel : Nat), c.view ss = pre ++ rest → pre.length < fuel →
      column.reverse c fuel ⟨ss, (keys pre).getLast?⟩ = some pre.reverse := by
  induction pre using List.reverseRecOn with
  | nil =>
    intro rest fuel _ hf
    obtain ⟨n, rfl⟩ : ∃ n, fuel = n + 1 := ⟨fuel - 1, by simp at hf; omega⟩
    rw [reverse_succ]
    simp [keys, column.const_iterator_base.eq, column.rend]
  | append_singleton init hd ih =>
    intro rest fuel hv hf
    obtain ⟨k, v⟩ := hd
    obtain ⟨n, rfl⟩ : ∃ n, fuel = n + 1 := ⟨fuel - 1, by simp at hf; omega⟩
    have hv' : c.view ss = init ++ (k, v) :: rest := by simp [hv]
    have hasc : ascending (keys (init ++ (k, v) :: rest)) := hv' ▸ ascending_view c ss
    have hk : keys (init ++ (k, v) :: rest) = keys init ++ k :: keys rest := by simp [keys]
    have hnext : column.const_reverse_iterator.incr c ⟨ss, some k⟩
        = ⟨ss, (keys init).getLast?⟩ := by
      simp only [column.const_reverse_iterator.incr, Option.bind, hv', hk]
      rw [cursor_prev_at _ _ _ (hk ▸ hasc)]
    have hderef : column.const_iterator_base.deref c ⟨ss, some k⟩ = some (k, v) := by
      simp only [column.const_iterator_base.deref, hv', get_at init rest k v hasc, Option.map]
    have hrec := ih ((k, v) :: rest) n hv' (by simp at hf; omega)
    have hlast : (keys (init ++ [(k, v)])).getLast? = some k := by
      simp [keys]
    rw [reverse_succ, hlast]
    simp only [column.const_iterator_base.eq, column.rend, hderef, hnext]
    simp [hrec]

theorem ascending_nodup (ks : List string_view) (h : ascending ks) : ks.Nodup :=
  List.Pairwise.imp (fun {a b} hab => lexLt_ne a b hab) h

theorem descending_reverse (ks : List string_view) (h : ascending ks) :
    descending ks.reverse := by
  unfold descending
  rw [List.pairwise_reverse]
  exact h

/-- C8: with enough iterations allowed, the loop from `begin()` to `end()`
ends and yields the cells of the column in storage order, and the loop from
`rbegin()` to `rend()` ends and yields them in the opposite order.  The keys
so visited are strictly ascending, respectively strictly descending; every
stored key is visited and none is visited twice; and both loops visit the same
keys. -/
theorem traversal_order (c : database.column) (fuel : Nat) (hf : c.contents.length < fuel) :
    column.forward c fuel (column.begin c) = some c.contents ∧
    column.reverse c fuel (column.rbegin c) = some c.contents.reverse ∧
    ascending (keys c.contents) ∧
    descending (keys c.contents.reverse) ∧
    (∀ k, has c k = .ok true ↔ k ∈ keys c.contents) ∧
    (keys c.contents).Nodup ∧
    (∀ k, k ∈ keys c.contents ↔ k ∈ keys c.contents.reverse) := by
  have hasc : ascending (keys c.contents) := ascending_view c c.now
  refine ⟨?_, ?_, hasc, ?_, ?_, ?_, ?_⟩
  · exact forward_from c c.now c.contents [] fuel rfl hf
  · have := reverse_from c c.now c.contents [] fuel (by simp [database.column.contents]) hf
    exact this
  · have e : keys c.contents.reverse = (keys c.contents).reverse := by simp [keys]
    rw [e]
    exact descending_reverse _ hasc
  · intro k
    rw [← get_isSome_iff]
    simp [has]
  · exact ascending_nodup _ hasc
  · intro k
    simp [keys]

/-! ## Bounds -/

theorem seek_lower_some (ks : List string_view) (k x : string_view) (h : ascending ks)
    (hx : seek_lower ks k = some x) :
    x ∈ ks ∧ lexLe k x = true ∧ ∀ y ∈ ks, lexLe k y = true → lexLe x y = true := by
  unfold seek_lower at hx
  refine ⟨List.mem_of_find?_eq_some hx, by simpa [lexLe] using List.find?_some hx, ?_⟩
  obtain ⟨_, as, bs, e, has⟩ := List.find?_eq_some.mp hx
  subst e
  obtain ⟨_, h2⟩ := ascending_split as bs x h
  intro y hy hky
  rcases List.mem_append.mp hy with hy | hy
  · have := has y hy
    simp only [lexLe, Bool.not_eq_true'] at hky
    simp [hky] at this
  · rcases List.mem_cons.mp hy with e | hy
    · subst e
      simp [lexLe, lexLt_irrefl]
    · simp [lexLe, lexLt_asymm x y (h2 y hy)]

theorem seek_upper_some (ks : List string_view) (k x : string_view) (h : ascending ks)
    (hx : seek_upper ks k = some x) :
    x ∈ ks ∧ lexLt k x = true ∧ ∀ y ∈ ks, lexLt k y = true → lexLe x y = true := by
  unfold seek_upper at hx
  refine ⟨List.mem_of_find?_eq_some hx, List.find?_some hx, ?_⟩
  obtain ⟨_, as, bs, e, has⟩ := List.find?_eq_some.mp hx
  subst e
  obtain ⟨_, h2⟩ := ascending_split as bs x h
  intro y hy hky
  rcases List.mem_append.mp hy with hy | hy
  · have := has y hy
    simp [hky] at this
  · rcases List.mem_cons.mp hy with e | hy
    · subst e
      simp [lexLe, lexLt_irrefl]
    · simp [lexLe, lexLt_asymm x y (h2 y hy)]

theorem lexLe_antisymm (a b : string_view) (h1 : lexLe a b = true) (h2 : lexLe b a = true) :
    a = b := by
  simp only [lexLe, Bool.not_eq_true'] at h1 h2
  exact lexLt_total a b h2 h1

/-- C9: `lower_bound(k)` is positioned at a key `x` exactly when `x` is the
least stored key not below `k`, and `upper_bound(k)` exactly when `x` is the
least stored key above `k`; when no such key is stored the iterator is invalid
and equal to `end()`.  `find(k)` is valid exactly when `k` is stored, and is
then positioned at `k`; otherwise it is equal to `end()`. -/
theorem bounds (c : database.column) (k : string_view) :
    (∀ x, (column.lower_bound c k).it = some x ↔
      (x ∈ keys c.contents ∧ lexLe k x = true ∧
        ∀ y ∈ keys c.contents, lexLe k y = true → lexLe x y = true)) ∧
    ((∀ y ∈ keys c.contents, lexLe k y = false) →
      (column.lower_bound c k).valid = false ∧
      (column.lower_bound c k).eq (column.end_ c) = true) ∧
    (∀ x, (column.upper_bound c k).it = some x ↔
      (x ∈ keys c.contents ∧ lexLt k x = true ∧
        ∀ y ∈ keys c.contents, lexLt k y = true → lexLe x y = true)) ∧
    ((∀ y ∈ keys c.contents, lexLt k y = false) →
      (column.upper_bound c k).valid = false ∧
      (column.upper_bound c k).eq (column.end_ c) = true) ∧
    ((column.find c k).valid = true ↔ k ∈ keys c.contents) ∧
    (k ∈ keys c.contents → (column.find c k).it = some k) ∧
    (k ∉ keys c.contents → (column.find c k).eq (column.end_ c) = true) := by
  have hasc : ascending (keys c.contents) := ascending_view c c.now
  refine ⟨?_, ?_, ?_, ?_, ?_, ?_, ?_⟩
  · intro x
    constructor
    · exact seek_lower_some _ k x hasc
    · rintro ⟨hx, hkx, hmin⟩
      cases hfind : seek_lower (keys c.contents) k with
      | none =>
        have := (List.find?_eq_none.mp hfind) x hx
        simp only [lexLe] at hkx
        simp [hkx] at this
      | some x' =>
        obtain ⟨hx', hkx', hmin'⟩ := seek_lower_some _ k x' hasc hfind
        have e : x' = x := lexLe_antisymm x' x (hmin' x hx hkx) (hmin x' hx' hkx')
        show seek_lower (keys c.contents) k = some x
        rw [hfind, e]
  · intro hnone
    have e : seek_lower (keys c.contents) k = none := by
      unfold seek_lower
      rw [List.find?_eq_none]
      intro y hy
      have := hnone y hy
      simp only [lexLe, Bool.not_eq_false'] at this
      simp [this]
    simp [column.lower_bound, column.const_iterator_base.valid, column.const_iterator_base.eq,
      column.end_, e]
  · intro x
    constructor
    · exact seek_upper_some _ k x hasc
    · rintro ⟨hx, hkx, hmin⟩
      cases hfind : seek_upper (keys c.contents) k with
      | none =>
        have := (List.find?_eq_none.mp hfind) x hx
        simp [hkx] at this
      | some x' =>
        obtain ⟨hx', hkx', hmin'⟩ := seek_upper_some _ k x' hasc hfind
        have e : x' = x := lexLe_antisymm x' x (hmin' x hx hkx) (hmin x' hx' hkx')
        show seek_upper (keys c.contents) k = some x
        rw [hfind, e]
  · intro hnone
    have e : seek_upper (keys c.contents) k = none := by
      unfold seek_upper
      rw [List.find?_eq_none]
      intro y hy
      simp [hnone y hy]
    simp [column.upper_bound, column.const_iterator_base.valid, column.const_iterator_base.eq,
      column.end_, e]
  · simp only [column.find, column.const_iterator_base.valid, seek_equal, List.find?_isSome,
      decide_eq_true_eq]
    constructor
    · rintro ⟨x, hx, e⟩
      exact e ▸ hx
    · intro h
      exact ⟨k, h, rfl⟩
  · intro h
    cases hfind : seek_equal (keys c.contents) k with
    | none =>
      have := (List.find?_eq_none.mp hfind) k h
      simp at this
    | some x =>
      have := List.find?_some hfind
      simp only [decide_eq_true_eq] at this
      show seek_equal (keys c.contents) k = some k
      rw [hfind, this]
  · intro h
    have e : seek_equal (keys c.contents) k = none := by
      unfold seek_equal
      rw [List.find?_eq_none]
      intro y hy
      simp only [decide_eq_true_eq]
      intro e
      exact h (e ▸ hy)
    simp [column.find, column.const_iterator_base.eq, column.end_, e]

/-! ## Snapshots under later commits -/

theorem run_extends (c : database.column) (e : commit) :
    ∃ more, (commit.run c e).log = c.log ++ more := by
  cases e with
  | write k v f =>
    rcases write_cases c k v f with h | h
    · exact ⟨[[column.delta.key_val k v]], by simp [commit.run, h.2]⟩
    · exact ⟨[], by simp [commit.run, h.2]⟩
  | del k f =>
    rcases del_cases c k f with h | h
    · exact ⟨[[column.delta.op_key op.DELETE k]], by simp [commit.run, h.2]⟩
    · exact ⟨[], by simp [commit.run, h.2]⟩
  | transaction ds f =>
    rcases operator_call_cases c ds f with h | h
    · exact ⟨[ds], by simp [commit.run, h.2]⟩
    · exact ⟨[], by simp [commit.run, h.2]⟩

theorem run_all_extends (cs : List commit) (c : database.column) :
    ∃ more, (commit.run_all c cs).log = c.log ++ more := by
  induction cs generalizing c with
  | nil => exact ⟨[], by simp [commit.run_all]⟩
  | cons e es ih =>
    obtain ⟨m1, h1⟩ := run_extends c e
    obtain ⟨m2, h2⟩ := ih (commit.run c e)
    refine ⟨m1 ++ m2, ?_⟩
    have : commit.run_all c (e :: es) = commit.run_all (commit.run c e) es := rfl
    rw [this, h2, h1, List.append_assoc]

theorem view_later (c later : database.column) (more : List (List column.delta))
    (ss : database.snapshot) (hl : later.log = c.log ++ more) (hs : ss.seq ≤ c.log.length) :
    later.view ss = c.view ss := by
  have e1 : later = ⟨c.log ++ more⟩ := by
    cases later
    simp only [database.column.mk.injEq]
    exact hl
  rw [e1]
  exact view_extend c.log more ss hs

theorem forward_amid_eq (sched : List (List commit)) :
    ∀ (c later : database.column) (more : List (List column.delta))
      (i : column.const_iterator_base),
      later.log = c.log ++ more → i.ss.seq ≤ c.log.length →
      column.forward_amid later sched i = column.forward c sched.length i := by
  induction sched with
  | nil => intro c later more i _ _; rfl
  | cons cs rest ih =>
    intro c later more i hl hs
    obtain ⟨m, hm⟩ := run_all_extends cs later
    have hl' : (commit.run_all later cs).log = c.log ++ (more ++ m) := by
      rw [hm, hl, List.append_assoc]
    have hv := view_later c (commit.run_all later cs) (more ++ m) i.ss hl' hs
    have hderef : i.deref (commit.run_all later cs) = i.deref c := by
      simp only [column.const_iterator_base.deref, hv]
    have hincr : column.const_iterator.incr (commit.run_all later cs) i
        = column.const_iterator.incr c i := by
      simp only [column.const_iterator.incr, hv]
    have hrec := ih c (commit.run_all later cs) (more ++ m) (column.const_iterator.incr c i)
      hl' hs
    rw [List.length_cons, forward_succ]
    simp only [column.forward_amid, hderef, hincr, hrec]
    rfl

theorem reverse_amid_eq (sched : List (List commit)) :
    ∀ (c later : database.column) (more : List (List column.delta))
      (i : column.const_iterator_base),
      later.log = c.log ++ more → i.ss.seq ≤ c.log.length →
      column.reverse_amid later sched i = column.reverse c sched.length i := by
  induction sched with
  | nil => intro c later more i _ _; rfl
  | cons cs rest ih =>
    intro c later more i hl hs
    obtain ⟨m, hm⟩ := run_all_extends cs later
    have hl' : (commit.run_all later cs).log = c.log ++ (more ++ m) := by
      rw [hm, hl, List.append_assoc]
    have hv := view_later c (commit.run_all later cs) (more ++ m) i.ss hl' hs
    have hderef : i.deref (commit.run_all later cs) = i.deref c := by
      simp only [column.const_iterator_base.deref, hv]
    have hincr : column.const_reverse_iterator.incr (commit.run_all later cs) i
        = column.const_reverse_iterator.incr c i := by
      simp only [column.const_reverse_iterator.incr, hv]
    have hrec := ih c (commit.run_all later cs) (more ++ m)
      (column.const_reverse_iterator.incr c i) hl' hs
    rw [List.length_cons, reverse_succ]
    simp only [column.reverse_amid, hderef, hincr, hrec]
    rfl

/-- C10: snapshot isolation of iterators.  Every iterator a column hands out
retains the snapshot of the moment of its construction.  For an iterator `i`
with that snapshot and any commits (writes, deletes, transactions, failed or
not) made afterwards, dereferencing and stepping `i` give what they gave
before those commits, and the forward and the reverse loop run amid any
schedule of interleaved commits yield the same (key, value) pairs as the loop
with no commit at all; from `begin()` that is the contents at construction. -/
theorem iterator_snapshot_isolation (c : database.column) (i : column.const_iterator_base)
    (hi : i.ss = c.now) :
    ((column.begin c).ss = c.now ∧ (column.end_ c).ss = c.now ∧
      (column.rbegin c).ss = c.now ∧ (column.rend c).ss = c.now ∧
      ∀ k, (column.find c k).ss = c.now ∧ (column.lower_bound c k).ss = c.now ∧
        (column.upper_bound c k).ss = c.now) ∧
    (∀ cs, i.deref (commit.run_all c cs) = i.deref c ∧
      column.const_iterator.incr (commit.run_all c cs) i = column.const_iterator.incr c i ∧
      column.const_iterator.decr (commit.run_all c cs) i = column.const_iterator.decr c i ∧
      column.const_reverse_iterator.incr (commit.run_all c cs) i
        = column.const_reverse_iterator.incr c i ∧
      column.const_reverse_iterator.decr (commit.run_all c cs) i
        = column.const_reverse_iterator.decr c i) ∧
    (∀ sched, column.forward_amid c sched i = column.forward c sched.length i) ∧
    (∀ sched, column.reverse_amid c sched i = column.reverse c sched.length i) ∧
    (∀ sched, c.contents.length < sched.length →
      column.forward_amid c sched (column.begin c) = some c.contents ∧
      column.reverse_amid c sched (column.rbegin c) = some c.contents.reverse) := by
  have hs : i.ss.seq ≤ c.log.length := by rw [hi]; exact Nat.le_refl _
  have hnow : c.now.seq ≤ c.log.length := Nat.le_refl _
  refine ⟨⟨rfl, rfl, rfl, rfl, fun _ => ⟨rfl, rfl, rfl⟩⟩, ?_, ?_, ?_, ?_⟩
  · intro cs
    obtain ⟨m, hm⟩ := run_all_extends cs c
    have hv := view_later c (commit.run_all c cs) m i.ss hm hs
    simp only [column.const_iterator_base.deref, column.const_iterator.incr,
      column.const_iterator.decr, column.const_reverse_iterator.incr,
      column.const_reverse_iterator.decr, hv, and_self]
  · intro sched
    exact forward_amid_eq sched c c [] i (by simp) hs
  · intro sched
    exact reverse_amid_eq sched c c [] i (by simp) hs
  · intro sched hlen
    constructor
    · rw [forward_amid_eq sched c c [] (column.begin c) (by simp) hnow]
      exact forward_from c c.now c.contents [] sched.length rfl hlen
    · rw [reverse_amid_eq sched c c [] (column.rbegin c) (by simp) hnow]
      exact reverse_from c c.now c.contents [] sched.length
        (by simp [database.column.contents]) hlen

/-! ## Instances on the sample column -/

theorem del_never_not_found_witness :
    has sample [99] = .ok false ∧ (del sample [99] none).2 = .ok () ∧
      (del sample [99] none).1.contents = sample.contents :=
  ⟨rfl, (del_never_not_found sample [99]).1, (del_never_not_found sample [99]).2.2 none rfl⟩

theorem operator_call_all_or_nothing_witness :
    (read (column.operator_call sample
          [column.delta.key_val [97] [49], column.delta.key_val [98] [50],
            column.delta.op_key op.DELETE [99]] (some 2)).1 [97] = .ok [49] ∧
      read (column.operator_call sample
          [column.delta.key_val [97] [49], column.delta.key_val [98] [50],
            column.delta.op_key op.DELETE [99]] (some 2)).1 [98] = .ok [50] ∧
      read (column.operator_call sample
          [column.delta.key_val [97] [49], column.delta.key_val [98] [50],
            column.delta.op_key op.DELETE [99]] (some 2)).1 [99] = .error error.not_found) ∨
      (column.operator_call sample
          [column.delta.key_val [97] [49], column.delta.key_val [98] [50],
            column.delta.op_key op.DELETE [99]] (some 2)).1 = sample :=
  (operator_call_all_or_nothing sample
    [column.delta.key_val [97] [49], column.delta.key_val [98] [50],
      column.delta.op_key op.DELETE [99]] (some 2)).2

theorem operator_call_in_order_witness :
    (column.operator_call sample
        [column.delta.key_val [98] [52], column.delta.op_key op.DELETE [98]] (some 3)).2 = .ok () ∧
    (column.operator_call sample
        [column.delta.key_val [98] [52], column.delta.op_key op.DELETE [98]] (some 3)).1.contents
      = [column.delta.key_val [98] [52], column.delta.op_key op.DELETE [98]].foldl apply
          sample.contents :=
  ⟨rfl, (operator_call_in_order sample).1
    [column.delta.key_val [98] [52], column.delta.op_key op.DELETE [98]] (some 3) rfl⟩

theorem read_after_write_witness :
    (write sample [107, 49] [118, 49] none).2 = .ok () ∧
    read (write sample [107, 49] [118, 49] none).1 [107, 49] = .ok [118, 49] ∧
    has (write sample [107, 49] [118, 49] none).1 [107, 49] = .ok true :=
  ⟨rfl, read_after_write sample [107, 49] [118, 49] none rfl⟩

theorem read_absent_not_found_witness :
    [99] ∉ keys sample.contents ∧ read sample [99] = .error error.not_found :=
  ⟨by decide, (read_absent_not_found sample [99]).1 (by decide)⟩

theorem has_iff_present_witness :
    [100] ∉ keys sample.contents ∧ has sample [100] = .ok false ∧
    [98] ∈ keys sample.contents ∧ has sample [98] = .ok true :=
  ⟨by decide, (has_iff_present sample [100]).1 (by decide), by decide,
    (has_iff_present sample [98]).2.1.mpr (by decide)⟩

theorem point_ops_are_single_delta_witness :
    (write sample [100] [53] (some 1)).2 = .ok () ∧
    (column.operator_call_one sample (column.delta.op_key_val op.SET [100] [53]) (some 2)).2
      = .ok () ∧
    (write sample [100] [53] (some 1)).1
      = (column.operator_call_one sample (column.delta.op_key_val op.SET [100] [53]) (some 2)).1 :=
  ⟨rfl, rfl, (point_ops_are_single_delta sample [100] [53]).2.2.2.2.1 (some 1) (some 2) rfl rfl⟩

theorem traversal_order_witness :
    sample.contents.length < 3 ∧
    column.forward sample 3 (column.begin sample) = some [([97], [51]), ([98], [49])] ∧
    column.reverse sample 3 (column.rbegin sample) = some [([98], [49]), ([97], [51])] :=
  ⟨by decide, (traversal_order sample 3 (by decide)).1, (traversal_order sample 3 (by decide)).2.1⟩

theorem bounds_witness :
    (column.lower_bound sample [97, 0]).it = some [98] ∧
    [98] ∈ keys sample.contents ∧ lexLe [97, 0] [98] = true ∧
    (column.lower_bound sample [99]).eq (column.end_ sample) = true :=
  ⟨rfl, ((bounds sample [97, 0]).1 [98]).mp rfl |>.1, ((bounds sample [97, 0]).1 [98]).mp rfl |>.2.1,
    ((bounds sample [99]).2.1 (by decide)).2⟩

theorem iterator_snapshot_isolation_witness :
    (column.begin sample).ss = sample.now ∧
    column.forward_amid sample
        [[], [commit.write [97, 1] [57] none, commit.del [98] none],
          [commit.transaction [column.delta.key_val [122] [48]] none], []]
        (column.begin sample)
      = some [([97], [51]), ([98], [49])] :=
  ⟨rfl, ((iterator_snapshot_isolation sample (column.begin sample) rfl).2.2.2.2
    [[], [commit.write [97, 1] [57] none, commit.del [98] none],
      [commit.transaction [column.delta.key_val [122] [48]] none], []] (by decide)).1⟩

/-! ## Row deltas -/

theorem row_append_none (key : string_view) (cds : List cell.delta) (i : Nat)
    (batch : List (Nat × column.delta)) :
    row.append none key cds i batch
      = .ok (batch ++ cds.map (fun cd => (cd.col, (cd.o, key, cd.val)))) := by
  induction cds generalizing i batch with
  | nil => simp [row.append]
  | cons cd cds ih => simp [row.append, ih]

theorem row_append_some (j : Nat) (key : string_view) (cds : List cell.delta) (i : Nat)
    (batch : List (Nat × column.delta)) :
    row.append (some j) key cds i batch
      = if i ≤ j ∧ j < i + cds.length then .error error.transaction_aborted
        else .ok (batch ++ cds.map (fun cd => (cd.col, (cd.o, key, cd.val)))) := by
  induction cds generalizing i batch with
  | nil =>
    have : ¬ (i ≤ j ∧ j < i) := by omega
    simp [row.append, this]
  | cons cd cds ih =>
    by_cases h : j = i
    · subst h
      simp [row.append]
    · simp only [row.append, Option.some.injEq, h, if_false, ih, List.length_cons,
        List.append_assoc, List.singleton_append, List.map_cons]
      have : (i + 1 ≤ j ∧ j < i + 1 + cds.length) ↔ (i ≤ j ∧ j < i + (cds.length + 1)) := by
        omega
      simp only [this]

/-- The outcome of a row commit is one of two: it succeeded and the engine
committed the whole staged batch, or it failed and the database is the one
before the call. -/
theorem row_write_cases (d : database) (r : row.delta) (fault : Option Nat) :
    ((row.write d r fault).2 = .ok () ∧ (row.write d r fault).1 = d.commit (row.batch r)) ∨
    ((∃ e, (row.write d r fault).2 = .error e) ∧ (row.write d r fault).1 = d) := by
  cases fault with
  | none => left; simp [row.write, row_append_none, row.batch]
  | some j =>
    by_cases h : j < r.cells.length
    · right; simp [row.write, row_append_some, h]
    · by_cases h2 : j = r.cells.length
      · right; simp [row.write, row_append_some, h2]
      · left; simp [row.write, row_append_some, h, h2, row.batch]

theorem contents_database_commit (d : database) (batch : List (Nat × column.delta)) (j : Nat) :
    ((d.commit batch).columns j).contents
      = (batch_of batch j).foldl apply (d.columns j).contents := by
  show (database.column.mk ((d.columns j).log ++ [batch_of batch j])).contents = _
  rw [contents_commit]

theorem batch_of_absent (key : string_view) (cells : List cell.delta) (j : Nat)
    (h : j ∉ cells.map cell.delta.col) :
    batch_of (cells.map (fun cd => (cd.col, (cd.o, key, cd.val)))) j = [] := by
  induction cells with
  | nil => rfl
  | cons hd tl ih =>
    have h1 : ¬ hd.col = j := fun e => h (by simp [e])
    have h2 : j ∉ tl.map cell.delta.col := fun e => h (by simp [List.mem_map] at e ⊢; exact Or.inr e)
    have := ih h2
    simp only [batch_of] at this ⊢
    simp [List.filter_cons, h1, this]

theorem batch_of_distinct (key : string_view) (cells : List cell.delta) (cd : cell.delta)
    (hn : (cells.map cell.delta.col).Nodup) (hm : cd ∈ cells) :
    batch_of (cells.map (fun cd => (cd.col, (cd.o, key, cd.val)))) cd.col
      = [(cd.o, key, cd.val)] := by
  induction cells with
  | nil => simp at hm
  | cons hd tl ih =>
    rw [List.map_cons, List.nodup_cons] at hn
    rcases List.mem_cons.mp hm with e | hm'
    · subst e
      have := batch_of_absent key tl cd.col hn.1
      simp only [batch_of] at this ⊢
      simp [List.filter_cons, this]
    · have hne : ¬ hd.col = cd.col := by
        intro e
        exact hn.1 (e ▸ List.mem_map_of_mem cell.delta.col hm')
      have := ih hn.2 hm'
      simp only [batch_of] at this ⊢
      simp [List.filter_cons, hne, this]

/-- C11: a row delta commits atomically across columns.  On a working engine
the commit succeeds.  For every fault, either it succeeds and every column
holds its prior contents with the deltas addressed to it applied, so that with
distinct participating columns reading the shared key in each of them gives
the new value (`not_found` where the cell deletes); or it fails and the
database, hence the value of the key in every column, is unchanged. -/
theorem row_write_atomic (d : database) (r : row.delta) (fault : Option Nat) :
    (row.write d r none).2 = .ok () ∧
    (((row.write d r fault).2 = .ok () ∧
        (∀ j, ((row.write d r fault).1.columns j).contents
            = (batch_of (row.batch r) j).foldl apply (d.columns j).contents) ∧
        ((r.cells.map cell.delta.col).Nodup → ∀ cd ∈ r.cells,
          read ((row.write d r fault).1.columns cd.col) r.key
            = (match cd.o with
                | op.SET => .ok cd.val
                | op.DELETE => .error error.not_found))) ∨
      ((∃ e, (row.write d r fault).2 = .error e) ∧ (row.write d r fault).1 = d ∧
        ∀ j, read ((row.write d r fault).1.columns j) r.key = read (d.columns j) r.key)) := by
  refine ⟨by simp [row.write, row_append_none], ?_⟩
  rcases row_write_cases d r fault with h | h
  · left
    refine ⟨h.1, ?_, ?_⟩
    · intro j
      rw [h.2, contents_database_commit]
    · intro hn cd hm
      rw [h.2]
      simp only [read, contents_database_commit]
      have e := batch_of_distinct r.key r.cells cd hn hm
      simp only [row.batch, e, List.foldl_cons, List.foldl_nil]
      cases ho : cd.o with
      | SET =>
        have : apply (d.columns cd.col).contents (op.SET, r.key, cd.val)
            = put (d.columns cd.col).contents r.key cd.val := rfl
        rw [this, get_put_same]
      | DELETE =>
        have : apply (d.columns cd.col).contents (op.DELETE, r.key, cd.val)
            = erase (d.columns cd.col).contents r.key := rfl
        rw [this, get_erase_same]
  · right
    refine ⟨h.1, h.2, ?_⟩
    intro j
    rw [h.2]

/-! ## The handle and the delta tuple -/

/-- C12: a default-constructed column handle is invalid: `operator bool()` is
false and `operator!()` is true; for every handle `operator bool()` is true
exactly when the pointer `c` is not null, and `operator!()` is its negation. -/
theorem column_validity (h : column) :
    column.default.operator_bool = false ∧ column.default.operator_not = true ∧
    (h.operator_bool = true ↔ h.c ≠ none) ∧
    h.operator_not = !h.operator_bool := by
  refine ⟨rfl, rfl, ?_, ?_⟩
  · cases h with
    | mk c => cases c <;> simp [column.operator_bool]
  · cases h with
    | mk c => cases c <;> rfl

/-- C13: the delta built by `delta(op, key)` with the value omitted carries the
empty byte string as its value, whatever the operation; so does
`delta(DELETE, key)`. -/
theorem delta_op_key_value_empty (o : op) (key : string_view) :
    (column.delta.op_key o key).2.2 = [] ∧
    (column.delta.op_key o key).std_get column.delta.VAL = some (.view []) ∧
    (column.delta.op_key op.DELETE key).2.2 = [] ∧
    (column.delta.op_key op.DELETE key).std_get column.delta.VAL = some (.view []) :=
  ⟨rfl, rfl, rfl, rfl⟩

/-- C14: the two delta constructors build the same tuple: `delta(key, val, op)`
equals `delta(op, key, val)`, its element at index `OP` is `op`, at `KEY` is
`key` and at `VAL` is `val`; and `delta(key, val)` equals `delta(SET, key, val)`. -/
theorem delta_constructors_agree (o : op) (key val : string_view) :
    column.delta.key_val_op key val o = column.delta.op_key_val o key val ∧
    (column.delta.key_val_op key val o).std_get column.delta.OP = some (.operation o) ∧
    (column.delta.key_val_op key val o).std_get column.delta.KEY = some (.view key) ∧
    (column.delta.key_val_op key val o).std_get column.delta.VAL = some (.view val) ∧
    (column.delta.op_key_val o key val).std_get column.delta.OP = some (.operation o) ∧
    (column.delta.op_key_val o key val).std_get column.delta.KEY = some (.view key) ∧
    (column.delta.op_key_val o key val).std_get column.delta.VAL = some (.view val) ∧
    column.delta.key_val key val = column.delta.op_key_val op.SET key val :=
  ⟨rfl, rfl, rfl, rfl, rfl, rfl, rfl, rfl⟩

theorem row_write_atomic_witness :
    ([(0 : Nat), 3].map id).Nodup ∧
    read ((row.write sample_database
        ⟨[107], [⟨0, op.SET, [1]⟩, ⟨3, op.SET, [2]⟩]⟩ none).1.columns 3) [107] = .ok [2] ∧
    read ((row.write sample_database
        ⟨[107], [⟨0, op.SET, [1]⟩, ⟨3, op.SET, [2]⟩]⟩ none).1.columns 0) [107] = .ok [1] ∧
    read ((row.write sample_database
        ⟨[107], [⟨0, op.SET, [1]⟩, ⟨3, op.SET, [2]⟩]⟩ (some 1)).1.columns 0) [107]
      = read (sample_database.columns 0) [107] :=
  ⟨by decide,
    ((row_write_atomic sample_database ⟨[107], [⟨0, op.SET, [1]⟩, ⟨3, op.SET, [2]⟩]⟩
      none).2.resolve_right (by simp [row.write, row.append])).2.2 (by decide)
        ⟨3, op.SET, [2]⟩ (by decide),
    ((row_write_atomic sample_database ⟨[107], [⟨0, op.SET, [1]⟩, ⟨3, op.SET, [2]⟩]⟩
      none).2.resolve_right (by simp [row.write, row.append])).2.2 (by decide)
        ⟨0, op.SET, [1]⟩ (by decide),
    ((row_write_atomic sample_database ⟨[107], [⟨0, op.SET, [1]⟩, ⟨3, op.SET, [2]⟩]⟩
      (some 1)).2.resolve_left (by simp [row.write, row.append])).2.2 0⟩

theorem column_validity_witness :
    (column.of_ref 7).operator_bool = true ∧ (column.of_ref 7).c ≠ none ∧
    (column.of_ref 7).operator_not = false :=
  ⟨(column_validity (column.of_ref 7)).2.2.1.mpr (by decide),
    (column_validity (column.of_ref 7)).2.2.1.mp rfl,
    (column_validity (column.of_ref 7)).2.2.2⟩

/-! ## Dereferencing the handle -/

/-- C21: dereferencing a column handle.  Each conversion is the dereference of
`c` (with `database::get` applied for the conversions to `database &`) and
tests nothing before it.  For a handle whose `operator bool()` is true and
that points to the object `obj` at address `p`, the conversions to
`database::column &` and `const database::column &` yield that object and
those to `database &` and `const database &` yield `database::get` of it; for
a handle whose `operator bool()` is false, the default-constructed one among
them, no conversion has a defined result; and a conversion with a defined
result is one of a valid handle. -/
theorem column_dereference {D : Type} (m : memory) (get : column_ref → D) (h : column) :
    (h.operator_database_column m = deref m h.c ∧
      h.operator_const_database_column m = deref m h.c ∧
      h.operator_database m get = (deref m h.c).map get ∧
      h.operator_const_database m get = (deref m h.c).map get) ∧
    (∀ p obj, h.operator_bool = true → h.c = some p → m p = some obj →
      h.operator_database_column m = some (p, obj) ∧
      h.operator_const_database_column m = some (p, obj) ∧
      h.operator_database m get = some (get (p, obj)) ∧
      h.operator_const_database m get = some (get (p, obj))) ∧
    (h.operator_bool = false →
      h.operator_database_column m = none ∧
      h.operator_const_database_column m = none ∧
      h.operator_database m get = none ∧
      h.operator_const_database m get = none) ∧
    (column.default.operator_database_column m = none ∧
      column.default.operator_const_database_column m = none ∧
      column.default.operator_database m get = none ∧
      column.default.operator_const_database m get = none) ∧
    (((h.operator_database_column m).isSome = true ∨
        (h.operator_const_database_column m).isSome = true ∨
        (h.operator_database m get).isSome = true ∨
        (h.operator_const_database m get).isSome = true) →
      h.operator_bool = true) := by
  refine ⟨⟨rfl, rfl, rfl, rfl⟩, ?_, ?_, ⟨rfl, rfl, rfl, rfl⟩, ?_⟩
  · intro p obj _ hc hm
    simp [column.operator_database_column, column.operator_const_database_column,
      column.operator_database, column.operator_const_database, deref, hc, hm]
  · intro hb
    have hc : h.c = none := by
      cases h with
      | mk c => cases c <;> simp [column.operator_bool] at hb ⊢
    simp [column.operator_database_column, column.operator_const_database_column,
      column.operator_database, column.operator_const_database, deref, hc]
  · intro hsome
    cases h with
    | mk c =>
      cases c with
      | none =>
        simp [column.operator_database_column, column.operator_const_database_column,
          column.operator_database, column.operator_const_database, deref] at hsome
      | some p => rfl

theorem column_dereference_witness :
    (column.of_ref 7).operator_bool = true ∧
    (column.of_ref 7).operator_database_column sample_memory = some (7, sample) ∧
    (column.of_ref 7).operator_const_database sample_memory (fun r => r.2.log.length)
      = some 3 :=
  ⟨rfl,
    ((column_dereference sample_memory (fun r => r.2.log.length) (column.of_ref 7)).2.1
      7 sample rfl rfl rfl).1,
    ((column_dereference sample_memory (fun r => r.2.log.length) (column.of_ref 7)).2.1
      7 sample rfl rfl rfl).2.2.2⟩

end ircd.db

namespace ircd.simd

/-! ## Machine arithmetic -/

theorem mask_and (c : Nat) (h : c < 4294967296) : 4294967295 &&& c = c := by
  have := Nat.and_pow_two_sub_one_eq_mod c 32
  rw [Nat.and_comm]
  simpa [Nat.mod_eq_of_lt h] using this

theorem count_trailing_lt (width : Nat) : ∀ (x : Nat), x ≠ 0 → x < 2 ^ width →
    count_trailing width x < width := by
  induction width with
  | zero => intro x h0 h; simp at h; exact absurd h h0
  | succ w ih =>
    intro x h0 h
    unfold count_trailing
    by_cases hodd : x % 2 = 1
    · simp [hodd]
    · have h1 : x / 2 ≠ 0 := by omega
      have h2 : x / 2 < 2 ^ w := by
        rw [Nat.pow_succ] at h
        omega
      have := ih (x / 2) h1 h2
      simp only [hodd, if_false]
      omega

theorem byte_zero (y : Nat) (hq : y / 256 = 0) (hr : y % 256 = 0) : y = 0 := by
  omega

theorem bswap64_lt (x : Nat) : __builtin_bswap64 x < 18446744073709551616 := by
  unfold __builtin_bswap64
  omega

theorem bswap64_ne_zero (x : Nat) (h0 : x ≠ 0) (h : x < 18446744073709551616) :
    __builtin_bswap64 x ≠ 0 := by
  intro hz
  unfold __builtin_bswap64 at hz
  simp only [Nat.add_eq_zero_iff, Nat.mul_eq_zero, OfNat.ofNat_ne_zero, or_false] at hz
  obtain ⟨⟨⟨⟨⟨⟨⟨b0, b1⟩, b2⟩, b3⟩, b4⟩, b5⟩, b6⟩, b7⟩ := hz
  have c7 : x / 72057594037927936 = 0 :=
    byte_zero _ (by rw [Nat.div_div_eq_div_mul]; exact Nat.div_eq_of_lt h) b7
  have c6 : x / 281474976710656 = 0 :=
    byte_zero _ (by rw [Nat.div_div_eq_div_mul]; exact c7) b6
  have c5 : x / 1099511627776 = 0 :=
    byte_zero _ (by rw [Nat.div_div_eq_div_mul]; exact c6) b5
  have c4 : x / 4294967296 = 0 :=
    byte_zero _ (by rw [Nat.div_div_eq_div_mul]; exact c5) b4
  have c3 : x / 16777216 = 0 :=
    byte_zero _ (by rw [Nat.div_div_eq_div_mul]; exact c4) b3
  have c2 : x / 65536 = 0 :=
    byte_zero _ (by rw [Nat.div_div_eq_div_mul]; exact c3) b2
  have c1 : x / 256 = 0 :=
    byte_zero _ (by rw [Nat.div_div_eq_div_mul]; exact c2) b1
  exact h0 (byte_zero x c1 b0)

/-! ## One loop iteration on 64-bit lanes -/

theorem mask_and_64 : 4294967295 &&& 64 = 64 :=
  mask_and 64 (by omega)

theorem mask_and_mask : 4294967295 &&& 4294967295 = 4294967295 :=
  mask_and 4294967295 (by omega)

theorem lane_count_zero (undef : Nat) : lane_count 8 undef 0 = 64 := by
  simp [lane_count, boolmask, uint_of, mask_and_64]

theorem lane_count_nonzero (undef x : Nat) (h0 : x ≠ 0) (h : x < 18446744073709551616) :
    lane_count 8 undef x = count_trailing 64 (__builtin_bswap64 x) ∧
    count_trailing 64 (__builtin_bswap64 x) < 64 := by
  have hb := bswap64_lt x
  have hz := bswap64_ne_zero x h0 h
  have hc : count_trailing 64 (__builtin_bswap64 x) < 64 :=
    count_trailing_lt 64 _ hz (by simpa using hb)
  refine ⟨?_, hc⟩
  have hm : __builtin_bswap64 x % 18446744073709551616 = __builtin_bswap64 x :=
    Nat.mod_eq_of_lt hb
  have hctz : __builtin_ctzl undef (__builtin_bswap64 x)
      = count_trailing 64 (__builtin_bswap64 x) := by
    simp [__builtin_ctzl, hm, hz]
  have hlt : count_trailing 64 (__builtin_bswap64 x) < 4294967296 := by omega
  simp [lane_count, boolmask, uint_of, h0, hctz, Nat.mod_eq_of_lt hlt, mask_and _ hlt]

theorem body_masked (undef x r : Nat) (hr : r < 4294967296) :
    _tzcnt_body 8 undef x (r, 0) = (r, 0) := by
  simp [_tzcnt_body, Nat.mod_eq_of_lt hr]

theorem body_zero_lane (undef k : Nat) (hk : k < 1000) :
    _tzcnt_body 8 undef 0 (64 * k, 4294967295) = (64 * (k + 1), 4294967295) := by
  have e1 : (64 * k + 64) % 4294967296 = 64 * (k + 1) := by omega
  have e2 : 64 * (k + 1) % 64 = 0 := by omega
  have e3 : ¬ 64 * (k + 1) = 0 := by omega
  simp [_tzcnt_body, lane_count_zero, e1, e2, e3, boolmask, uint_of, mask_and_64, mask_and_mask]

theorem body_nonzero_lane (undef x k : Nat) (h0 : x ≠ 0) (h : x < 18446744073709551616)
    (hk : k < 1000) :
    (_tzcnt_body 8 undef x (64 * k, 4294967295)).1
      = 64 * k + count_trailing 64 (__builtin_bswap64 x) ∧
    (_tzcnt_body 8 undef x (64 * k, 4294967295)).2
      = (if count_trailing 64 (__builtin_bswap64 x) = 0 ∧ k ≠ 0 then 4294967295 else 0) := by
  obtain ⟨hl, hc⟩ := lane_count_nonzero undef x h0 h
  have hlt : count_trailing 64 (__builtin_bswap64 x) < 4294967296 := by omega
  have e1 : (64 * k + count_trailing 64 (__builtin_bswap64 x)) % 4294967296
      = 64 * k + count_trailing 64 (__builtin_bswap64 x) := by omega
  refine ⟨by simp [_tzcnt_body, hl, mask_and _ hlt, e1], ?_⟩
  by_cases hc0 : count_trailing 64 (__builtin_bswap64 x) = 0
  · by_cases hk0 : k = 0
    · simp [_tzcnt_body, hl, hc0, hk0, boolmask, uint_of]
    · have e2 : 64 * k % 4294967296 = 64 * k := by omega
      have e3 : 64 * k % 64 = 0 := by omega
      have e4 : ¬ 64 * k = 0 := by omega
      simp [_tzcnt_body, hl, hc0, hk0, boolmask, uint_of, e2, e3, e4, mask_and_mask]
  · have e3 : ¬ (64 * k + count_trailing 64 (__builtin_bswap64 x)) % 64 = 0 := by omega
    simp [_tzcnt_body, hl, hc0, mask_and _ hlt, e1, e3, boolmask, uint_of]

theorem tzcnt_two_lanes (undef b0 b1 : Nat) :
    tzcnt_u64 undef [b0, b1]
      = (_tzcnt_body 8 undef b0 (_tzcnt_body 8 undef b1 (64 * 0, 4294967295))).1 := rfl

theorem tzcnt_four_lanes (undef b0 b1 b2 b3 : Nat) :
    tzcnt_u64 undef [b0, b1, b2, b3]
      = (_tzcnt_body 8 undef b0 (_tzcnt_body 8 undef b1 (_tzcnt_body 8 undef b2
          (_tzcnt_body 8 undef b3 (64 * 0, 4294967295))))).1 := rfl

/-! ## The 128-bit word -/

/-- C16: for a 128-bit word viewed as the two 64-bit lanes `a0` and `a1`,
`tzcnt` is `_tzcnt` on those lanes and equals the trailing zeros of the
byte-swapped lane 1 when lane 1 is not zero, 64 plus those of the byte-swapped
lane 0 when lane 1 is zero and lane 0 is not, and 128 when both are zero; once
lane 1 is not zero the result is the same whatever lane 0 holds. -/
theorem tzcnt_u128x1_lanes (undef a0 a1 : Nat) (h0 : a0 < 18446744073709551616)
    (h1 : a1 < 18446744073709551616) :
    tzcnt_u128x1 undef (a0 + 18446744073709551616 * a1) = tzcnt_u64 undef [a0, a1] ∧
    (a1 ≠ 0 → tzcnt_u64 undef [a0, a1] = count_trailing 64 (__builtin_bswap64 a1) ∧
      count_trailing 64 (__builtin_bswap64 a1) < 64) ∧
    (a1 = 0 → a0 ≠ 0 →
      tzcnt_u64 undef [a0, a1] = 64 + count_trailing 64 (__builtin_bswap64 a0) ∧
      count_trailing 64 (__builtin_bswap64 a0) < 64) ∧
    (a1 = 0 → a0 = 0 → tzcnt_u64 undef [a0, a1] = 128) ∧
    (a1 ≠ 0 → ∀ b0, tzcnt_u64 undef [b0, a1] = tzcnt_u64 undef [a0, a1]) := by
  have hfirst : ∀ b0, a1 ≠ 0 →
      tzcnt_u64 undef [b0, a1] = count_trailing 64 (__builtin_bswap64 a1) := by
    intro b0 hne
    obtain ⟨r1, r2⟩ := body_nonzero_lane undef a1 0 hne h1 (by omega)
    obtain ⟨_, hc⟩ := lane_count_nonzero undef a1 hne h1
    have hst : _tzcnt_body 8 undef a1 (64 * 0, 4294967295)
        = (count_trailing 64 (__builtin_bswap64 a1), 0) := by
      apply Prod.ext
      · simpa using r1
      · simpa using r2
    rw [tzcnt_two_lanes, hst, body_masked _ _ _ (by omega)]
  refine ⟨?_, ?_, ?_, ?_, ?_⟩
  · have e0 : (a0 + 18446744073709551616 * a1) % 18446744073709551616 = a0 := by omega
    have e1 : (a0 + 18446744073709551616 * a1) / 18446744073709551616
        % 18446744073709551616 = a1 := by omega
    simp only [tzcnt_u128x1, tzcnt_u64, u64x2_of, e0, e1]
  · intro hne
    exact ⟨hfirst a0 hne, (lane_count_nonzero undef a1 hne h1).2⟩
  · intro hz hne
    subst hz
    obtain ⟨r1, _⟩ := body_nonzero_lane undef a0 1 hne h0 (by omega)
    have hst := body_zero_lane undef 0 (by omega)
    rw [tzcnt_two_lanes, hst]
    exact ⟨by simpa using r1, (lane_count_nonzero undef a0 hne h0).2⟩
  · intro hz1 hz0
    subst hz1
    subst hz0
    rw [tzcnt_two_lanes, body_zero_lane undef 0 (by omega), body_zero_lane undef 1 (by omega)]
  · intro hne b0
    rw [hfirst b0 hne, hfirst a0 hne]

/-! ## Words of more than two lanes -/

/-- C15: evaluation of the code where it leaves the stated count.  For the four
64-bit lanes `{0, 0, 0x0100000000000000, 0}` (the 256-bit word `2^184`) lane 3
is zero and lane 2 is not, with no trailing zero in its byte-swapped value, so
the stated count is `64 * 1 + 0 = 64`; `_tzcnt` returns 192, because its mask
stays set after lane 2 and the two zero lanes below are counted as well. -/
theorem tzcnt_u64x4_overcounts (undef : Nat) :
    tzcnt_u64 undef [0, 0, 72057594037927936, 0] = 192 ∧
    tzcnt_u256x1 undef (2 ^ 184) = 192 ∧
    zero_lanes [0, 0, 72057594037927936, 0] = 1 ∧
    count_trailing 64 (__builtin_bswap64 72057594037927936) = 0 ∧
    tzcnt_spec [0, 0, 72057594037927936, 0] = 64 := by
  have hc : count_trailing 64 (__builtin_bswap64 72057594037927936) = 0 := by decide
  have hrun : tzcnt_u64 undef [0, 0, 72057594037927936, 0] = 192 := by
    obtain ⟨r1, r2⟩ := body_nonzero_lane undef 72057594037927936 1 (by omega) (by omega)
      (by omega)
    have hst : _tzcnt_body 8 undef 72057594037927936 (64 * 1, 4294967295)
        = (64 * 1, 4294967295) := by
      apply Prod.ext
      · simpa [hc] using r1
      · simpa [hc] using r2
    rw [tzcnt_four_lanes, body_zero_lane undef 0 (by omega)]
    show (_tzcnt_body 8 undef 0 (_tzcnt_body 8 undef 0
      (_tzcnt_body 8 undef 72057594037927936 (64 * 1, 4294967295)))).1 = 192
    rw [hst, body_zero_lane undef 1 (by omega), body_zero_lane undef 2 (by omega)]
  have hw : u64x4_of (2 ^ 184) = [0, 0, 72057594037927936, 0] := by decide
  refine ⟨hrun, ?_, by decide, hc, by decide⟩
  rw [tzcnt_u256x1, hw]
  exact hrun

theorem tzcnt_u128x1_lanes_witness :
    tzcnt_u64 77 [5, 0] = 64 + count_trailing 64 (__builtin_bswap64 5) ∧
    count_trailing 64 (__builtin_bswap64 5) < 64 ∧
    tzcnt_u64 77 [5, 288230376151711744] = count_trailing 64 (__builtin_bswap64 288230376151711744) ∧
    tzcnt_u64 77 [0, 0] = 128 :=
  ⟨((tzcnt_u128x1_lanes 77 5 0 (by decide) (by decide)).2.2.1 rfl (by decide)).1,
    ((tzcnt_u128x1_lanes 77 5 0 (by decide) (by decide)).2.2.1 rfl (by decide)).2,
    ((tzcnt_u128x1_lanes 77 5 288230376151711744 (by decide) (by decide)).2.1 (by decide)).1,
    (tzcnt_u128x1_lanes 77 0 0 (by decide) (by decide)).2.2.2.1 rfl rfl⟩

/-! ## Bounds on the count -/

theorem getD_lt (a : List Nat) (bound : Nat) (hb : 0 < bound) (h : ∀ x ∈ a, x < bound)
    (j : Nat) : a.getD j 0 < bound := by
  by_cases hj : j < a.length
  · rw [List.getD_eq_getElem a 0 hj]
    exact h _ (List.getElem_mem hj)
  · rw [List.getD_eq_default a 0 (by omega)]
    exact hb

theorem lane_count_le (undef x : Nat) (h : x < 18446744073709551616) :
    lane_count 8 undef x ≤ 64 := by
  by_cases h0 : x = 0
  · subst h0
    rw [lane_count_zero]
  · obtain ⟨e, hc⟩ := lane_count_nonzero undef x h0 h
    omega

theorem body_le (undef x : Nat) (st : Nat × Nat) (h : x < 18446744073709551616) :
    (_tzcnt_body 8 undef x st).1 ≤ st.1 + 64 := by
  have h1 : st.2 &&& lane_count 8 undef x ≤ lane_count 8 undef x := Nat.and_le_right
  have h2 := lane_count_le undef x h
  have h3 : (st.1 + (st.2 &&& lane_count 8 undef x)) % 4294967296
      ≤ st.1 + (st.2 &&& lane_count 8 undef x) := Nat.mod_le _ _
  show (st.1 + (st.2 &&& lane_count 8 undef x)) % 4294967296 ≤ st.1 + 64
  omega

theorem loop_le (undef : Nat) (a : List Nat) (h : ∀ j, a.getD j 0 < 18446744073709551616) :
    ∀ (i : Nat) (st : Nat × Nat),
      (_tzcnt_loop 8 undef a i st).1 ≤ st.1 + 64 * (i + 1) := by
  intro i
  induction i with
  | zero =>
    intro st
    have := body_le undef (a.getD 0 0) st (h 0)
    simpa [_tzcnt_loop] using this
  | succ i ih =>
    intro st
    have h1 := body_le undef (a.getD (i + 1) 0) st (h (i + 1))
    have h2 := ih (_tzcnt_body 8 undef (a.getD (i + 1) 0) st)
    show (_tzcnt_loop 8 undef a i (_tzcnt_body 8 undef (a.getD (i + 1) 0) st)).1
      ≤ st.1 + 64 * (i + 1 + 1)
    omega

theorem loop_zero (undef : Nat) (a : List Nat) :
    ∀ (i k : Nat), (∀ j, j ≤ i → a.getD j 0 = 0) → k + i + 1 < 1000 →
      _tzcnt_loop 8 undef a i (64 * k, 4294967295) = (64 * (k + i + 1), 4294967295) := by
  intro i
  induction i with
  | zero =>
    intro k hz hk
    show _tzcnt_body 8 undef (a.getD 0 0) (64 * k, 4294967295) = _
    rw [hz 0 (Nat.le_refl 0), body_zero_lane undef k (by omega)]
  | succ i ih =>
    intro k hz hk
    show _tzcnt_loop 8 undef a i (_tzcnt_body 8 undef (a.getD (i + 1) 0) (64 * k, 4294967295))
      = _
    rw [hz (i + 1) (Nat.le_refl _), body_zero_lane undef k (by omega),
      ih (k + 1) (fun j hj => hz j (by omega)) (by omega)]
    have e : k + 1 + i + 1 = k + (i + 1) + 1 := by omega
    rw [e]

/-- C22: for the all-zero input `_tzcnt` returns the full bit width of the word:
128 for two 64-bit lanes, 256 for four and 512 for eight; and for every input
of `n >= 1` lanes of 64 bits the result is at most `64 * n`.  Both hold for
every value the builtin may return at 0. -/
theorem tzcnt_width (undef : Nat) :
    _tzcnt 8 undef [0, 0] = 128 ∧
    _tzcnt 8 undef [0, 0, 0, 0] = 256 ∧
    _tzcnt 8 undef [0, 0, 0, 0, 0, 0, 0, 0] = 512 ∧
    (∀ a : List Nat, a ≠ [] → (∀ x ∈ a, x < 18446744073709551616) →
      _tzcnt 8 undef a ≤ 64 * a.length) := by
  have hzero : ∀ n, n < 900 → _tzcnt 8 undef (List.replicate (n + 1) 0) = 64 * (n + 1) := by
    intro n hn
    have hz : ∀ j, j ≤ n → (List.replicate (n + 1) 0).getD j 0 = 0 := by
      intro j _
      by_cases hj : j < (List.replicate (n + 1) 0).length
      · rw [List.getD_eq_getElem _ 0 hj]
        simp
      · rw [List.getD_eq_default _ 0 (by omega)]
    have := loop_zero undef (List.replicate (n + 1) 0) n 0 hz (by omega)
    have hlen : (List.replicate (n + 1) 0).length - 1 = n := by simp
    show (_tzcnt_loop 8 undef (List.replicate (n + 1) 0)
      ((List.replicate (n + 1) 0).length - 1) (64 * 0, 4294967295)).1 = 64 * (n + 1)
    rw [hlen, this]
    simp
  refine ⟨hzero 1 (by omega), hzero 3 (by omega), hzero 7 (by omega), ?_⟩
  intro a hne hlanes
  have hlen : a.length - 1 + 1 = a.length := by
    have : 0 < a.length := List.length_pos.mpr hne
    omega
  have := loop_le undef a (getD_lt a _ (by omega) hlanes) (a.length - 1) (0, 4294967295)
  rw [hlen] at this
  simpa [_tzcnt] using this

theorem tzcnt_width_witness :
    ([3, 0, 72057594037927936, 0] : List Nat) ≠ [] ∧
    _tzcnt 8 0 [3, 0, 72057594037927936, 0] ≤ 64 * 4 :=
  ⟨by decide, (tzcnt_width 0).2.2.2 [3, 0, 72057594037927936, 0] (by decide) (by decide)⟩

/-! ## The value of the builtin at zero -/

theorem bswap32_lt (x : Nat) : __builtin_bswap32 x < 4294967296 := by
  unfold __builtin_bswap32
  omega

theorem bswap32_ne_zero (x : Nat) (h0 : x ≠ 0) (h : x < 4294967296) :
    __builtin_bswap32 x ≠ 0 := by
  intro hz
  unfold __builtin_bswap32 at hz
  simp only [Nat.add_eq_zero_iff, Nat.mul_eq_zero, OfNat.ofNat_ne_zero, or_false] at hz
  obtain ⟨⟨⟨b0, b1⟩, b2⟩, b3⟩ := hz
  have c3 : x / 16777216 = 0 :=
    byte_zero _ (by rw [Nat.div_div_eq_div_mul]; exact Nat.div_eq_of_lt h) b3
  have c2 : x / 65536 = 0 :=
    byte_zero _ (by rw [Nat.div_div_eq_div_mul]; exact c3) b2
  have c1 : x / 256 = 0 :=
    byte_zero _ (by rw [Nat.div_div_eq_div_mul]; exact c2) b1
  exact h0 (byte_zero x c1 b0)

theorem mask_and_32 : 4294967295 &&& 32 = 32 :=
  mask_and 32 (by omega)

theorem lane_count_zero_32 (undef : Nat) : lane_count 4 undef 0 = 32 := by
  simp [lane_count, boolmask, uint_of, mask_and_32]

theorem lane_count_undef_32 (u v x : Nat) (h : x < 4294967296) :
    lane_count 4 u x = lane_count 4 v x := by
  by_cases h0 : x = 0
  · subst h0
    rw [lane_count_zero_32, lane_count_zero_32]
  · have hm : __builtin_bswap32 x % 4294967296 ≠ 0 := by
      rw [Nat.mod_eq_of_lt (bswap32_lt x)]
      exact bswap32_ne_zero x h0 h
    have e : ∀ w, __builtin_ctz w (__builtin_bswap32 x)
        = count_trailing 32 (__builtin_bswap32 x % 4294967296) := by
      intro w
      simp [__builtin_ctz, hm]
    have n1 : ¬ (4 ≤ 1) := by omega
    have n2 : ¬ (4 ≤ 2) := by omega
    simp only [lane_count, e, n1, n2, if_false, Nat.le_refl, if_true]

theorem lane_count_undef_64 (u v x : Nat) (h : x < 18446744073709551616) :
    lane_count 8 u x = lane_count 8 v x := by
  by_cases h0 : x = 0
  · subst h0
    rw [lane_count_zero, lane_count_zero]
  · rw [(lane_count_nonzero u x h0 h).1, (lane_count_nonzero v x h0 h).1]

theorem body_congr (sizeof_lane u v x : Nat) (st : Nat × Nat)
    (h : lane_count sizeof_lane u x = lane_count sizeof_lane v x) :
    _tzcnt_body sizeof_lane u x st = _tzcnt_body sizeof_lane v x st := by
  simp only [_tzcnt_body, h]

theorem loop_congr (sizeof_lane u v : Nat) (a : List Nat)
    (h : ∀ j, lane_count sizeof_lane u (a.getD j 0) = lane_count sizeof_lane v (a.getD j 0)) :
    ∀ (i : Nat) (st : Nat × Nat),
      _tzcnt_loop sizeof_lane u a i st = _tzcnt_loop sizeof_lane v a i st := by
  intro i
  induction i with
  | zero =>
    intro st
    exact body_congr sizeof_lane u v _ st (h 0)
  | succ i ih =>
    intro st
    show _tzcnt_loop sizeof_lane u a i (_tzcnt_body sizeof_lane u (a.getD (i + 1) 0) st)
      = _tzcnt_loop sizeof_lane v a i (_tzcnt_body sizeof_lane v (a.getD (i + 1) 0) st)
    rw [body_congr sizeof_lane u v _ st (h (i + 1)), ih]

/-- C23: the count does not depend on what the builtin returns for a zero
argument.  On a zero lane the builtin is called with 0 and returns the
arbitrary value, yet the summand of that lane is exactly the lane width, 32
or 64; and for every vector of 32-bit lanes and every vector of 64-bit lanes,
`_tzcnt` computed with the builtin returning `u` at 0 equals `_tzcnt` computed
with it returning `v`. -/
theorem tzcnt_ignores_ctz_of_zero (u v : Nat) (a : List Nat) :
    (__builtin_ctz u (__builtin_bswap32 0) = u ∧ lane_count 4 u 0 = 32 ∧
      4294967295 &&& lane_count 4 u 0 = 32) ∧
    (__builtin_ctzl u (__builtin_bswap64 0) = u ∧ lane_count 8 u 0 = 64 ∧
      4294967295 &&& lane_count 8 u 0 = 64) ∧
    ((∀ x ∈ a, x < 4294967296) → _tzcnt 4 u a = _tzcnt 4 v a) ∧
    ((∀ x ∈ a, x < 18446744073709551616) → _tzcnt 8 u a = _tzcnt 8 v a) := by
  refine ⟨⟨by simp [__builtin_ctz, __builtin_bswap32], lane_count_zero_32 u, ?_⟩,
    ⟨by simp [__builtin_ctzl, __builtin_bswap64], lane_count_zero u, ?_⟩, ?_, ?_⟩
  · rw [lane_count_zero_32, mask_and_32]
  · rw [lane_count_zero, mask_and_64]
  · intro h
    have hl := getD_lt a 4294967296 (by omega) h
    unfold _tzcnt
    rw [loop_congr 4 u v a (fun j => lane_count_undef_32 u v _ (hl j))]
  · intro h
    have hl := getD_lt a 18446744073709551616 (by omega) h
    unfold _tzcnt
    rw [loop_congr 8 u v a (fun j => lane_count_undef_64 u v _ (hl j))]

theorem tzcnt_ignores_ctz_of_zero_witness :
    _tzcnt 8 0 [5, 0] = _tzcnt 8 77 [5, 0] ∧
    _tzcnt 4 0 [0, 16777216, 0, 0] = _tzcnt 4 4294967295 [0, 16777216, 0, 0] :=
  ⟨(tzcnt_ignores_ctz_of_zero 0 77 [5, 0]).2.2.2 (by decide),
    (tzcnt_ignores_ctz_of_zero 0 4294967295 [0, 16777216, 0, 0]).2.2.1 (by decide)⟩

end ircd.simd


namespace ircd.log

/-- C17: CRITICAL is never suppressed by console quieting.  Whatever the
switches were and whether or not the notice is shown, right after
`console_quiet` is constructed `console_out[f]` and `console_err[f]` are false
for every facility `f` other than CRITICAL, and `console_out[CRITICAL]` and
`console_err[CRITICAL]` have the values they had before. -/
theorem console_quiet_keeps_critical (s : state) (showmsg : Bool) :
    (∀ f, f ≠ facility.CRITICAL →
      (console_quiet.construct showmsg s).console_out f = false ∧
      (console_quiet.construct showmsg s).console_err f = false) ∧
    (console_quiet.construct showmsg s).console_out facility.CRITICAL
      = s.console_out facility.CRITICAL ∧
    (console_quiet.construct showmsg s).console_err facility.CRITICAL
      = s.console_err facility.CRITICAL := by
  have hc : ∀ b : Bool, b = true ∨ b = false := fun b => by cases b <;> simp
  refine ⟨?_, ?_, ?_⟩
  · intro f hf
    rcases hc (s.console_out facility.CRITICAL) with h1 | h1 <;>
      rcases hc (s.console_err facility.CRITICAL) with h2 | h2 <;>
      cases showmsg <;>
      simp [console_quiet.construct, notice, slog, set_true, h1, h2, hf]
  · rcases hc (s.console_out facility.CRITICAL) with h1 | h1 <;>
      rcases hc (s.console_err facility.CRITICAL) with h2 | h2 <;>
      cases showmsg <;>
      simp [console_quiet.construct, notice, slog, set_true, h1, h2]
  · rcases hc (s.console_out facility.CRITICAL) with h1 | h1 <;>
      rcases hc (s.console_err facility.CRITICAL) with h2 | h2 <;>
      cases showmsg <;>
      simp [console_quiet.construct, notice, slog, set_true, h1, h2]

theorem console_quiet_keeps_critical_witness :
    (console_quiet.construct true after_init).console_err facility.ERROR = false ∧
    (console_quiet.construct true after_init).console_out facility.NOTICE = false ∧
    (console_quiet.construct true after_init).console_err facility.CRITICAL = true ∧
    (console_quiet.construct true after_init).console_out facility.CRITICAL = false :=
  ⟨((console_quiet_keeps_critical after_init true).1 facility.ERROR (by decide)).2,
    ((console_quiet_keeps_critical after_init true).1 facility.NOTICE (by decide)).1,
    (console_quiet_keeps_critical after_init true).2.2,
    (console_quiet_keeps_critical after_init true).2.1⟩

end ircd.log

namespace ircd.privs

/-- C18: the user handler `m_privs` shows only the requester's own privileges.
When `parc >= 2`, `parv[1]` is not empty and `irccmp(parv[1], source.name)` is
not zero, its only call sends `ERR_NOPRIVILEGES` to the source, and
`show_privs` is not called; in every other case its only call is
`show_privs(source, &source)`.  `ERR_NOPRIVILEGES` is sent in no other case. -/
theorem m_privs_own_only (e : env) (source : client) (parc : Int)
    (parv : Nat → Option String) :
    ((parc ≥ 2 ∧ EmptyString (parv 1) = false ∧
        e.irccmp ((parv 1).getD "") source.name ≠ 0) →
      m_privs e source parc parv
        = [call.sendto_one_numeric source numeric.ERR_NOPRIVILEGES
            (e.form_str numeric.ERR_NOPRIVILEGES) []] ∧
      (∀ c ∈ m_privs e source parc parv, c.is_show_privs = false) ∧
      (∀ c ∈ outgoing e (m_privs e source parc parv), c.sends numeric.RPL_PRIVS = false)) ∧
    (¬ (parc ≥ 2 ∧ EmptyString (parv 1) = false ∧
        e.irccmp ((parv 1).getD "") source.name ≠ 0) →
      m_privs e source parc parv = [call.show_privs source source] ∧
      (∀ c ∈ m_privs e source parc parv, c.sends numeric.ERR_NOPRIVILEGES = false)) ∧
    ((∃ c ∈ m_privs e source parc parv, c.sends numeric.ERR_NOPRIVILEGES = true) →
      (parc ≥ 2 ∧ EmptyString (parv 1) = false ∧
        e.irccmp ((parv 1).getD "") source.name ≠ 0)) := by
  by_cases h : parc ≥ 2 ∧ EmptyString (parv 1) = false ∧
      e.irccmp ((parv 1).getD "") source.name ≠ 0
  · have hm : m_privs e source parc parv
        = [call.sendto_one_numeric source numeric.ERR_NOPRIVILEGES
            (e.form_str numeric.ERR_NOPRIVILEGES) []] := by
      obtain ⟨h1, h2, h3⟩ := h
      simp [m_privs, h1, h2, h3]
    refine ⟨fun _ => ⟨hm, ?_, ?_⟩, fun hn => absurd h hn, fun _ => h⟩
    · rw [hm]; simp [call.is_show_privs]
    · rw [hm]; simp [outgoing, call.sends]
  · have hm : m_privs e source parc parv = [call.show_privs source source] := by
      unfold m_privs
      rw [if_neg]
      intro hc
      apply h
      simp only [Bool.and_eq_true, decide_eq_true_eq, Bool.not_eq_true'] at hc
      exact ⟨hc.1.1, hc.1.2, hc.2⟩
    refine ⟨fun hp => absurd hp h, fun _ => ⟨hm, ?_⟩, ?_⟩
    · rw [hm]; simp [call.sends]
    · rw [hm]; simp [call.sends]

/-- C19: the operator handler `mo_privs` produces exactly one outgoing message.
With no `parv[1]` or an empty one the target is the source; when a named
target is not found its only call sends `ERR_NOSUCHNICK` to the source; for
a local target its only call is `show_privs(source, target)`; for a remote
target its only call sends one `ENCAP ... PRIVS` line toward the target, and
`show_privs` is not called. -/
theorem mo_privs_one_message (e : env) (source : client) (parc : Int)
    (parv : Nat → Option String) :
    (outgoing e (mo_privs e source parc parv)).length = 1 ∧
    ((parc < 2 ∨ EmptyString (parv 1) = true) →
      mo_privs e source parc parv
        = (if source.my then [call.show_privs source source]
            else [call.sendto_one source ":%s ENCAP %s PRIVS %s"
              [e.get_id source source, source.servname, e.use_id source]])) ∧
    ((¬ parc < 2 ∧ EmptyString (parv 1) = false) →
      (e.find_named_person ((parv 1).getD "") = none →
        mo_privs e source parc parv
          = [call.sendto_one_numeric source numeric.ERR_NOSUCHNICK
              (e.form_str numeric.ERR_NOSUCHNICK) [(parv 1).getD ""]]) ∧
      (∀ target, e.find_named_person ((parv 1).getD "") = some target →
        (target.my = true → mo_privs e source parc parv = [call.show_privs source target]) ∧
        (target.my = false →
          mo_privs e source parc parv
            = [call.sendto_one target ":%s ENCAP %s PRIVS %s"
                [e.get_id source target, target.servname, e.use_id target]] ∧
          ∀ c ∈ mo_privs e source parc parv, c.is_show_privs = false))) := by
  refine ⟨?_, ?_, ?_⟩
  · unfold mo_privs
    simp only
    split
    · simp [outgoing]
    · split <;> simp [outgoing, show_privs]
  · intro h
    have hc : (decide (parc < 2) || EmptyString (parv 1)) = true := by
      rcases h with h | h
      · simp [h]
      · simp [h]
    simp only [mo_privs, hc, if_true]
  · rintro ⟨h1, h2⟩
    have hc : (decide (parc < 2) || EmptyString (parv 1)) = false := by
      simp [h1, h2]
    refine ⟨?_, ?_⟩
    · intro hf
      simp [mo_privs, hc, hf]
    · intro target hf
      refine ⟨?_, ?_⟩
      · intro hmy
        simp [mo_privs, hc, hf, hmy]
      · intro hmy
        have hm : mo_privs e source parc parv
            = [call.sendto_one target ":%s ENCAP %s PRIVS %s"
                [e.get_id source target, target.servname, e.use_id target]] := by
          simp [mo_privs, hc, hf, hmy]
        refine ⟨hm, ?_⟩
        rw [hm]
        simp [call.is_show_privs]

/-- C20: the ENCAP handler `me_privs` never shows privileges of remote clients.
It calls `show_privs`, once and for the client found, exactly when the source
is an operator, `parc >= 2`, `parv[1]` is not empty, and `find_person(parv[1])`
finds a client that is local; in every other case it makes no call at all. -/
theorem me_privs_local_only (e : env) (source : client) (parc : Int)
    (parv : Nat → Option String) :
    (∀ target, (source.oper = true ∧ parc ≥ 2 ∧ EmptyString (parv 1) = false ∧
        e.find_person ((parv 1).getD "") = some target ∧ target.my = true) →
      me_privs e source parc parv = [call.show_privs source target]) ∧
    ((¬ ∃ target, source.oper = true ∧ parc ≥ 2 ∧ EmptyString (parv 1) = false ∧
        e.find_person ((parv 1).getD "") = some target ∧ target.my = true) →
      me_privs e source parc parv = [] ∧ outgoing e (me_privs e source parc parv) = []) ∧
    ((∃ c ∈ me_privs e source parc parv, c.is_show_privs = true) ↔
      ∃ target, source.oper = true ∧ parc ≥ 2 ∧ EmptyString (parv 1) = false ∧
        e.find_person ((parv 1).getD "") = some target ∧ target.my = true) := by
  have hpos : ∀ target, (source.oper = true ∧ parc ≥ 2 ∧ EmptyString (parv 1) = false ∧
      e.find_person ((parv 1).getD "") = some target ∧ target.my = true) →
      me_privs e source parc parv = [call.show_privs source target] := by
    rintro target ⟨h1, h2, h3, h4, h5⟩
    have h2' : ¬ parc < 2 := by omega
    simp [me_privs, h1, h2', h3, h4, h5]
  have hneg : (¬ ∃ target, source.oper = true ∧ parc ≥ 2 ∧ EmptyString (parv 1) = false ∧
      e.find_person ((parv 1).getD "") = some target ∧ target.my = true) →
      me_privs e source parc parv = [] := by
    intro hn
    unfold me_privs
    split
    · rfl
    · rename_i hc
      simp only [Bool.or_eq_true, Bool.not_eq_true', decide_eq_true_eq, not_or] at hc
      obtain ⟨⟨h1, h2⟩, h3⟩ := hc
      split
      · rename_i target hf
        split
        · rename_i hmy
          exact absurd ⟨target, by simpa using h1, by omega, by simpa using h3, hf, hmy⟩ hn
        · rfl
      · rfl
  refine ⟨hpos, fun hn => ⟨hneg hn, by rw [hneg hn]; rfl⟩, ?_⟩
  constructor
  · rintro ⟨c, hc, _⟩
    by_contra hn
    rw [hneg hn] at hc
    simp at hc
  · rintro ⟨target, ht⟩
    rw [hpos target ht]
    exact ⟨_, List.mem_singleton.mpr rfl, rfl⟩

theorem m_privs_own_only_witness :
    m_privs sample_env bob 2 (parv_of "alice")
      = [call.sendto_one_numeric bob numeric.ERR_NOPRIVILEGES
          (sample_env.form_str numeric.ERR_NOPRIVILEGES) []] ∧
    m_privs sample_env bob 2 (parv_of "bob") = [call.show_privs bob bob] :=
  ⟨((m_privs_own_only sample_env bob 2 (parv_of "alice")).1
      ⟨by decide, by decide, by decide⟩).1,
    ((m_privs_own_only sample_env bob 2 (parv_of "bob")).2.1 (by decide)).1⟩

theorem mo_privs_one_message_witness :
    mo_privs sample_env alice 2 (parv_of "bob")
      = [call.sendto_one bob ":%s ENCAP %s PRIVS %s"
          [sample_env.get_id alice bob, bob.servname, sample_env.use_id bob]] ∧
    mo_privs sample_env alice 2 (parv_of "carol")
      = [call.sendto_one_numeric alice numeric.ERR_NOSUCHNICK
          (sample_env.form_str numeric.ERR_NOSUCHNICK) [((parv_of "carol") 1).getD ""]] ∧
    mo_privs sample_env alice 2 (parv_of "alice") = [call.show_privs alice alice] :=
  ⟨(((mo_privs_one_message sample_env alice 2 (parv_of "bob")).2.2
      ⟨by decide, by decide⟩).2 bob rfl).2 rfl |>.1,
    ((mo_privs_one_message sample_env alice 2 (parv_of "carol")).2.2
      ⟨by decide, by decide⟩).1 rfl,
    (((mo_privs_one_message sample_env alice 2 (parv_of "alice")).2.2
      ⟨by decide, by decide⟩).2 alice rfl).1 rfl⟩

theorem me_privs_local_only_witness :
    me_privs sample_env alice 2 (parv_of "alice") = [call.show_privs alice alice] ∧
    me_privs sample_env alice 2 (parv_of "bob") = [] :=
  ⟨(me_privs_local_only sample_env alice 2 (parv_of "alice")).1 alice
      ⟨rfl, by decide, by decide, rfl, rfl⟩,
    ((me_privs_local_only sample_env alice 2 (parv_of "bob")).2.1
      (by
        rintro ⟨target, _, _, _, hf, hmy⟩
        have hb : sample_env.find_person (((parv_of "bob") 1).getD "") = some bob := by decide
        rw [hb] at hf
        cases hf
        exact Bool.noConfusion hmy)).1⟩

end ircd.privs
